import Mathlib

/-!
Verification of the layer-materialization subsystem of `sou`
(package `tarfs` plus `container/image.go` and `container/cache.go`).

Shallow embedding conventions:
* Go strings (paths, names) are modelled as `List Char` (`PStr`), so that the
  byte-level path functions `path.Clean`, `path.Dir`, `path.Base` and
  `path.Join` become structurally recursive Lean functions.
* A tar archive is modelled as the list of members yielded by `tar.Reader`:
  each member is a header plus its content bytes.  The on-disk byte stream
  follows the standard tar layout (one 512-byte header block per member, the
  content padded to a multiple of 512, a 1024-byte zero trailer); only the
  lengths of the header blocks matter to the indexed offsets, so header
  blocks are rendered as zero bytes.  The size recorded in a member's header
  equals the length of its content, exactly as `tar.Reader` delivers it.
* `io.ReadSeeker` positions are the explicit `pos` accumulator of
  `buildIndex`: after `tr.Next()` returns member `i`'s header the underlying
  reader sits at the start of member `i`'s content, which is where
  `tarfs.New` records the offset.
* Mutable heap state (the `*Entry` arena reachable from `fileMap`) is an
  explicit arena `List Entry` with indices standing for pointers.
-/

/-- Go strings, byte-for-byte (paths in this repository are ASCII). -/
abbrev PStr := List Char

/-- Split a Go string on the `/` byte, mirroring `strings.Split(s, "/")`:
`splitSlash [] = [[]]`, and every separator starts a new group. -/
def splitSlash : PStr → List PStr
  | [] => [[]]
  | c :: rest =>
    if c = '/' then [] :: splitSlash rest
    else
      match splitSlash rest with
      | g :: gs => (c :: g) :: gs
      | [] => [[c]]

/-- Join components with `/`, mirroring `strings.Join(cs, "/")`. -/
def joinSlash : List PStr → PStr
  | [] => []
  | [c] => c
  | c :: cs => c ++ '/' :: joinSlash cs

/-- The `..` path component. -/
def dd : PStr := ['.', '.']

/-- The element-processing loop of Go `path.Clean`: the first argument is the
output stack (head = most recently emitted component), the second the pending
components.  Empty and `.` components are dropped; `..` pops a preceding
non-`..` component, is dropped at the root of a rooted path, and is kept
otherwise. -/
def cleanStack (rooted : Bool) : List PStr → List PStr → List PStr
  | acc, [] => acc
  | acc, c :: cs =>
    if c = [] ∨ c = ['.'] then cleanStack rooted acc cs
    else if c = dd then
      match acc with
      | a :: rest =>
        if a = dd then cleanStack rooted (dd :: a :: rest) cs
        else cleanStack rooted rest cs
      | [] => if rooted then cleanStack rooted [] cs else cleanStack rooted [dd] cs
    else cleanStack rooted (c :: acc) cs

/-- Whether a Go path is rooted (begins with `/`). -/
def isRooted (s : PStr) : Bool :=
  match s with
  | [] => false
  | c :: _ => c = '/'

/-- Rebuild a path from its rootedness flag and component list, as Go
`path.Clean` does after processing: an empty component list renders as `/`
(rooted) or `.` (relative). -/
def render (rooted : Bool) (cs : List PStr) : PStr :=
  match cs with
  | [] => if rooted then ['/'] else ['.']
  | _ => (if rooted then ['/'] else []) ++ joinSlash cs

/-- Go `path.Clean`. -/
def pathCleanL (s : PStr) : PStr :=
  render (isRooted s) ((cleanStack (isRooted s) [] (splitSlash s)).reverse)

/-- Everything up to and including the last `/` of a Go path (the `dir` half
of Go `path.Split`); empty when the path has no `/`. -/
def upToLastSlash (s : PStr) : PStr :=
  (s.reverse.dropWhile (· ≠ '/')).reverse

/-- Go `path.Dir`: `Clean` of the part up to the final slash. -/
def pathDirL (s : PStr) : PStr :=
  pathCleanL (upToLastSlash s)

/-- Go `path.Base`: last element of the path, after stripping trailing
slashes; `.` for the empty path, `/` for an all-slash path. -/
def pathBaseL (s : PStr) : PStr :=
  if s = [] then ['.']
  else
    let t := s.reverse.dropWhile (· = '/')
    if t = [] then ['/']
    else (t.takeWhile (· ≠ '/')).reverse

/-- Go `path.Join` restricted to two elements (as used by
`filepath.Join(path, name)` on slash-separated paths): empty elements are
skipped and the result is cleaned. -/
def pathJoinL (a b : PStr) : PStr :=
  if a = [] then (if b = [] then [] else pathCleanL b)
  else if b = [] then pathCleanL a
  else pathCleanL (a ++ '/' :: b)

/-! ## Tar members and the byte stream -/

/-- Relevant `tar.Header` type flags (byte values of `archive/tar`). -/
def tarTypeReg : Nat := 48

/-- Type flag of a hard link (`tar.TypeLink`, byte `'1'`). -/
def tarTypeLink : Nat := 49

/-- Type flag of a directory (`tar.TypeDir`, byte `'5'`). -/
def tarTypeDir : Nat := 53

/-- One archive member as yielded by `tar.Reader`: header fields plus the
member's content bytes.  The header's recorded size is the content length
(this is what determines the content's extent in the stream). -/
structure TarMember where
  typeflag : Nat
  name : PStr
  linkname : PStr
  content : List UInt8
  mode : Nat
  modTime : Nat
deriving DecidableEq

instance : Inhabited TarMember :=
  ⟨{ typeflag := 0, name := [], linkname := [], content := [], mode := 0, modTime := 0 }⟩

/-- Round a content size up to a whole number of 512-byte blocks. -/
def padTo512 (n : Nat) : Nat := ((n + 511) / 512) * 512

/-- The bytes a member occupies in the stream: a 512-byte header block, then
the content padded to a multiple of 512.  Only the lengths matter to the
index, so the header block is rendered as zeros. -/
def memberBlock (m : TarMember) : List UInt8 :=
  List.replicate 512 0 ++ m.content ++
    List.replicate (padTo512 m.content.length - m.content.length) 0

/-- The member area of the stream. -/
def blockBytes : List TarMember → List UInt8
  | [] => []
  | m :: ms => memberBlock m ++ blockBytes ms

/-- Total byte length of the member area. -/
def blocksLen : List TarMember → Nat
  | [] => 0
  | m :: ms => 512 + padTo512 m.content.length + blocksLen ms

/-- The whole archive stream: member blocks followed by the two zero blocks
ending a tar archive. -/
def tarStream (ms : List TarMember) : List UInt8 :=
  blockBytes ms ++ List.replicate 1024 0

/-! ## The tarfs index (`tarfs.New`) -/

/-- The `tarfs.Header` record built for each member (and for the pseudo
root).  `size` mirrors `Header.size`; mode and modification time are carried
as numbers (their string renderings live in external packages). -/
structure HeaderM where
  typeflag : Nat
  name : PStr
  linkname : PStr
  size : Nat
  mode : Nat
  modTime : Nat
deriving DecidableEq

/-- A `tarfs.Entry`: header pointer, content offset and size, and the child
list (arena indices standing for the `[]*Entry` pointers). -/
structure Entry where
  header : HeaderM
  offset : Nat
  size : Nat
  children : List Nat
deriving DecidableEq

/-- The pseudo-root entry installed under key `.` before scanning: a
directory header with empty name, `fs.ModeDir | fs.ModePerm` mode and zero
time, offset and size. -/
def rootEntry : Entry :=
  { header := { typeflag := tarTypeDir, name := [], linkname := [], size := 0,
                mode := 2 ^ 31 + 511, modTime := 0 },
    offset := 0, size := 0, children := [] }

instance : Inhabited Entry := ⟨rootEntry⟩

/-- Association-list lookup modelling Go map indexing; insertion prepends, so
the first match is the most recent binding. -/
def lookupFM : List (PStr × Nat) → PStr → Option Nat
  | [], _ => none
  | (k, v) :: rest, key => if k = key then some v else lookupFM rest key

/-- Header record of a member as stored by `tarfs.New` (name already
cleaned, size taken from the header). -/
def headerOf (m : TarMember) : HeaderM :=
  { typeflag := m.typeflag, name := pathCleanL m.name, linkname := m.linkname,
    size := m.content.length, mode := m.mode, modTime := m.modTime }

/-- Append child index `c` to the entry at arena index `p` (no-op when `p`
is out of range, like a failed map lookup would be). -/
def appendChild (arena : List Entry) (p c : Nat) : List Entry :=
  arena.set p { arena.getD p rootEntry with
                children := (arena.getD p rootEntry).children ++ [c] }

/-- The entry `tarfs.New` allocates for a member read at position `pos`:
offset just past the 512-byte header, size from the header, no children
yet. -/
def newEntry (m : TarMember) (pos : Nat) : Entry :=
  { header := headerOf m, offset := pos + 512,
    size := m.content.length, children := [] }

/-- The scan loop of `tarfs.New`: `pos` is the reader position before the
next member's header; for each member the content offset is recorded (the
position after the 512-byte header), the entry is registered in the map
(overwriting any older binding for the same cleaned path), and the entry is
appended to the child list of the entry currently registered under its
parent path, when one exists. -/
def buildIndex : Nat → List Entry → List (PStr × Nat) → List TarMember →
    List Entry × List (PStr × Nat)
  | _, arena, fmap, [] => (arena, fmap)
  | pos, arena, fmap, m :: ms =>
    let filePath := pathCleanL m.name
    let idx := arena.length
    let arena' := arena ++ [newEntry m pos]
    let fmap' := (filePath, idx) :: fmap
    let arena'' :=
      match lookupFM fmap' (pathDirL filePath) with
      | some p => appendChild arena' p idx
      | none => arena'
    buildIndex (pos + 512 + padTo512 m.content.length) arena'' fmap' ms

/-- A built `tarfs.FS`: the entry arena, the path map, and the shared
underlying stream. -/
structure FSm where
  entries : List Entry
  fileMap : List (PStr × Nat)
  stream : List UInt8
deriving DecidableEq

/-- `tarfs.New` on a reader whose archive consists of the members `ms`. -/
def tarfsNew (ms : List TarMember) : FSm :=
  let (arena, fmap) := buildIndex 0 [rootEntry] [(['.'], 0)] ms
  { entries := arena, fileMap := fmap, stream := tarStream ms }

/-! ## Open handles (`tarfs.FS.Open`, `tarfs.File`) -/

/-- Errors of `tarfs.FS.Open`: `fs.ErrNotExist` for an absent path, and the
distinct `target file %s not found` error for a dangling hard link. -/
inductive OpenErr
  | notExist (path : PStr)
  | linkTargetMissing (path target : PStr)
deriving DecidableEq

/-- A `tarfs.File`: the embedded header, the section bounds
`[offset, offset+size)` over the shared stream, the child entries (pointer
copies), and the `ReadDir` cursor. -/
structure FHandle where
  header : HeaderM
  offset : Nat
  size : Nat
  children : List Entry
  readPos : Nat
deriving DecidableEq

instance : Inhabited FHandle :=
  ⟨{ header := rootEntry.header, offset := 0, size := 0, children := [], readPos := 0 }⟩

/-- Build the handle returned by `Open` for a resolved entry. -/
def mkHandle (fs : FSm) (e : Entry) : FHandle :=
  { header := e.header, offset := e.offset, size := e.size,
    children := e.children.map (fun c => fs.entries.getD c rootEntry),
    readPos := 0 }

/-- `tarfs.FS.Open`: look the path up in the map; resolve exactly one level
of hard link (failing with the link-target error when the raw link name has
no binding); return a section handle over the resolved entry. -/
def FSm.openFile (fs : FSm) (name : PStr) : Except OpenErr FHandle :=
  match lookupFM fs.fileMap name with
  | none => .error (.notExist name)
  | some i =>
    let e := fs.entries.getD i rootEntry
    if e.header.typeflag = tarTypeLink then
      match lookupFM fs.fileMap e.header.linkname with
      | none => .error (.linkTargetMissing name e.header.linkname)
      | some j => .ok (mkHandle fs (fs.entries.getD j rootEntry))
    else .ok (mkHandle fs e)

/-- Errors of `tarfs.File.ReadDir`: `fs.ErrInvalid` on a non-directory
handle, `io.EOF` on a positive-count read past the end. -/
inductive RdErr
  | notADirectory (path : PStr)
  | endOfListing
deriving DecidableEq

/-- `tarfs.File.ReadDir`: mirrors the Go method, returning the listed child
headers together with the advanced handle (the Go method mutates
`f.readPos`). -/
def FHandle.readDir (f : FHandle) (n : Int) : Except RdErr (List HeaderM × FHandle) :=
  if f.header.typeflag ≠ tarTypeDir then .error (.notADirectory f.header.name)
  else
    let remaining := f.children.length - f.readPos
    if remaining = 0 then
      if n ≤ 0 then .ok ([], f) else .error .endOfListing
    else
      let k := if n ≤ 0 then remaining else min n.toNat remaining
      .ok (((f.children.drop f.readPos).take k).map (·.header),
           { f with readPos := f.readPos + k })

/-- Repeated `ReadDir(1)` until the call fails, concatenating the results. -/
def readAllOnesAux : Nat → FHandle → List HeaderM
  | 0, _ => []
  | fuel + 1, f =>
    match f.readDir 1 with
    | .error _ => []
    | .ok (hs, f') => hs ++ readAllOnesAux fuel f'

/-- Exhaustive `ReadDir(1)` enumeration of a handle. -/
def readAllOnes (f : FHandle) : List HeaderM :=
  readAllOnesAux (f.children.length + 1) f

/-- `Open` followed by `io.ReadAll`: the section `[offset, offset+size)` of
the shared stream (for the entries `tarfs.New` builds the section always
lies inside the stream). -/
def FSm.readFileBytes (fs : FSm) (name : PStr) : Except OpenErr (List UInt8) :=
  (fs.openFile name).map (fun h => (fs.stream.drop h.offset).take h.size)

/-- `Open` followed by `Stat().Size()`. -/
def FSm.statSize (fs : FSm) (name : PStr) : Option Nat :=
  ((fs.openFile name).map (fun h => h.header.size)).toOption

/-! ## The container layer (`container/image.go`) -/

/-- `container.Layer`'s materialization-relevant state: the diff identifier
and the filesystem pointer (`nil` before a successful `InitializeLayer`). -/
structure LayerM where
  diffID : String
  fs : Option FSm
deriving DecidableEq

/-- Errors surfaced by `Layer.GetFiles` / `Layer.ReadFile`. -/
inductive LayerErr
  | notInitialized
  | openErr (e : OpenErr)
  | rdErr (e : RdErr)
deriving DecidableEq

/-- A `container.File` listing record; mode and modification time are
carried numerically (their string renderings live in external packages). -/
structure FileRec where
  name : PStr
  isDir : Bool
  path : PStr
  size : Nat
  mode : Nat
  modTime : Nat
deriving DecidableEq

/-- The record `Layer.GetFiles` builds for one directory entry: the base
name of the entry's stored (cleaned) path, the directory flag, the joined
path, and the header's size/mode/time. -/
def toFileRec (dpath : PStr) (h : HeaderM) : FileRec :=
  { name := pathBaseL h.name, isDir := h.typeflag = tarTypeDir,
    path := pathJoinL dpath (pathBaseL h.name),
    size := h.size, mode := h.mode, modTime := h.modTime }

/-- `Layer.GetFiles`: fails with `layer not initialized` before
materialization; otherwise `Open` + `ReadDir(-1)` + record building (the
`fs.ReadDirFile` type assertion always succeeds for `tarfs.File`, and
`entry.Info()` never fails, so those branches are not reachable). -/
def LayerM.getFiles (l : LayerM) (dpath : PStr) : Except LayerErr (List FileRec) :=
  match l.fs with
  | none => .error .notInitialized
  | some fs =>
    match fs.openFile dpath with
    | .error e => .error (.openErr e)
    | .ok h =>
      match h.readDir (-1) with
      | .error e => .error (.rdErr e)
      | .ok (hs, _) => .ok (hs.map (toFileRec dpath))

/-- `Layer.ReadFile`: fails with `layer not initialized` before
materialization; otherwise `Open` + `io.ReadAll`. -/
def LayerM.readFile (l : LayerM) (p : PStr) : Except LayerErr (List UInt8) :=
  match l.fs with
  | none => .error .notInitialized
  | some fs =>
    match fs.readFileBytes p with
    | .error e => .error (.openErr e)
    | .ok bs => .ok bs

/-! ## Progress reporting (`progressReader`, `createNewLayer`, `InitializeLayer`)

Progress values are modelled in `ℚ` (the reported `float64` ratios are exact
enough that ordering and the constants `0`, `0.2`, `0.5`, `0.8`, `1` are
faithfully represented).  Wall-clock throttling (`50ms`) is abstracted by a
per-read boolean saying whether the throttle window had elapsed. -/

/-- The ratio `current/total` clamped to `1.0`, as computed by
`progressReader.Read`. -/
def clampRatio (cur total : Nat) : ℚ :=
  min ((cur : ℚ) / (total : ℚ)) 1

/-- The values `progressReader` passes to the callback during one
`io.Copy`: `chunks` lists the successful reads as (byte count, throttle
window elapsed); after the data the final read returns `io.EOF`, upon which
`1.0` is reported whenever any bytes were counted and the total is
positive. -/
def prReports (total : Nat) : Nat → List (Nat × Bool) → List ℚ
  | cur, [] => if 0 < cur ∧ 0 < total then [1] else []
  | cur, (n, t) :: rest =>
    if 0 < n then
      (if 0 < total ∧ t then [clampRatio (cur + n) total] else []) ++
        prReports total (cur + n) rest
    else prReports total cur rest

/-- The progress values reported by a successful `Layer.createNewLayer`:
`0.2` after creating the cache file, the copy-loop reports, `0.8` after the
copy, and `1.0` after indexing. -/
def createNewLayerReports (total : Nat) (chunks : List (Nat × Bool)) : List ℚ :=
  1/5 :: (prReports total 0 chunks ++ [4/5, 1])

/-- The environment of one `Layer.InitializeLayer` call on the successful
paths: whether the layer was already initialized, whether the cache had a
path for the diff identifier, whether opening that file succeeded, whether
re-indexing it succeeded, and the declared size and read chunks of a fresh
extraction. -/
structure InitEnv where
  alreadyInit : Bool
  cachedFound : Bool
  openOk : Bool
  cacheIndexOk : Bool
  total : Nat
  chunks : List (Nat × Bool)
deriving DecidableEq

/-- The full sequence of progress values reported by one successful
`InitializeLayer` call: `1.0` alone when already initialized; otherwise
`0.0`, then on a usable cache entry `0.5` (after the file opens) and `1.0`
(after it indexes) — a failed open or re-index falls through to
`createNewLayerReports`. -/
def initializeLayerReports (e : InitEnv) : List ℚ :=
  if e.alreadyInit then [1]
  else
    0 :: (if e.cachedFound && e.openOk then
            1/2 :: (if e.cacheIndexOk then [1]
                    else createNewLayerReports e.total e.chunks)
          else createNewLayerReports e.total e.chunks)

/-- A list of progress reports is monotonically non-decreasing. -/
def monotoneReports (l : List ℚ) : Prop := l.Chain' (· ≤ ·)

/-! ## Initialization outcome (`initializeFromCache` / `InitializeLayer`) -/

/-- Where a successful initialization got its filesystem from. -/
inductive InitSource
  | already
  | cache
  | extracted
deriving DecidableEq

/-- `Layer.initializeFromCache`'s success flag: false (a cache miss) when
the cache has no path, when opening the cached file fails, or when
re-indexing it fails; its error return is always `nil` and is discarded by
the caller. -/
def initializeFromCacheB (cachedFound openOk indexOk : Bool) : Bool :=
  cachedFound && openOk && indexOk

/-- `Layer.InitializeLayer`'s control flow on a layer: an already-built
filesystem returns at once; a usable cache entry returns; otherwise the
result is whatever fresh extraction (`createNewLayer`) produces. -/
def initializeLayerOutcome (alreadyInit cachedFound openOk indexOk : Bool)
    (ext : Except String Unit) : Except String InitSource :=
  if alreadyInit then .ok .already
  else if initializeFromCacheB cachedFound openOk indexOk then .ok .cache
  else ext.map (fun _ => .extracted)

/-! ## The process-wide layer cache (`container/cache.go`)

The scratch directory is identified by a number (its `os.MkdirTemp` name is
process-unique); a cache file path is the pair (directory id, file index).
The disk is the finite map of existing cache files to the archives they
hold. -/

/-- A cache file path: scratch directory id and file index
(`layer-%d.tar`, numbered by the entry count at creation time). -/
abbrev CPath := Nat × Nat

/-- The process-wide cache state: `cacheDir` is `none` while the Go global
is the empty string, `layerCache` maps diff ids to file paths, `disk` holds
the existing cache files, and `nextDirId` feeds `os.MkdirTemp`. -/
structure CacheSt where
  cacheDir : Option Nat
  layerCache : List (String × CPath)
  disk : List (CPath × List TarMember)
  nextDirId : Nat
deriving DecidableEq

/-- Association lookup with string keys (Go map indexing). -/
def lookupS {α : Type} : List (String × α) → String → Option α
  | [], _ => none
  | (k, v) :: rest, key => if k = key then some v else lookupS rest key

/-- Association lookup with path keys. -/
def lookupD {α : Type} : List (CPath × α) → CPath → Option α
  | [], _ => none
  | (k, v) :: rest, key => if k = key then some v else lookupD rest key

/-- `getCacheFilePath`: create the scratch directory on first use, then
return a fresh path named by the current cache entry count. -/
def getCacheFilePathM (st : CacheSt) : CacheSt × CPath :=
  match st.cacheDir with
  | some d => (st, (d, st.layerCache.length))
  | none =>
    ({ st with cacheDir := some st.nextDirId, nextDirId := st.nextDirId + 1 },
     (st.nextDirId, st.layerCache.length))

/-- One `Layer.InitializeLayer` call against the process-wide cache,
returning the layer's filesystem, the new cache state, and how many times
`layer.Uncompressed()` (the blob-source stream function) was invoked.  An
already-initialized layer returns at once.  A cached path whose file still
exists is re-opened and re-indexed without touching the blob source.
Otherwise the layer is extracted: a fresh cache file is created and filled
with the decompressed stream (one `Uncompressed` call), indexed, and
registered in the cache. -/
def materializeLayerM (diffID : String) (blob : List TarMember)
    (lfs : Option FSm) (st : CacheSt) : Option FSm × CacheSt × Nat :=
  match lfs with
  | some f => (some f, st, 0)
  | none =>
    let extract : Option FSm × CacheSt × Nat :=
      let (st1, p) := getCacheFilePathM st
      (some (tarfsNew blob),
       { st1 with disk := (p, blob) :: st1.disk,
                  layerCache := (diffID, p) :: st1.layerCache },
       1)
    match lookupS st.layerCache diffID with
    | some p =>
      match lookupD st.disk p with
      | some ms => (some (tarfsNew ms), st, 0)
      | none => extract
    | none => extract

/-- `CleanupCache`: a no-op while `cacheDir` is empty; otherwise attempt to
remove every cached file, clear the mapping, and remove the scratch
directory with everything under it.  Returns the new state, the list of
file-removal attempts, and the error (always `nil` here: individual removal
failures are only printed).  The code does not clear `cacheDir`. -/
def cleanupCacheM (st : CacheSt) : CacheSt × List CPath × Option String :=
  match st.cacheDir with
  | none => (st, [], none)
  | some d =>
    let attempts := st.layerCache.map (·.2)
    let disk1 := st.disk.filter (fun e => e.1 ∉ attempts)
    let disk2 := disk1.filter (fun e => e.1.1 ≠ d)
    ({ st with layerCache := [], disk := disk2 }, attempts, none)

/-- Decidable equality for `Except`, needed to evaluate the model's results
on concrete inputs. -/
instance {ε α : Type} [DecidableEq ε] [DecidableEq α] : DecidableEq (Except ε α) :=
  fun x y =>
  match x, y with
  | .error a, .error b =>
    if h : a = b then isTrue (h ▸ rfl) else isFalse (fun hh => h (Except.error.inj hh))
  | .ok a, .ok b =>
    if h : a = b then isTrue (h ▸ rfl) else isFalse (fun hh => h (Except.ok.inj hh))
  | .error _, .ok _ => isFalse (fun hh => Except.noConfusion hh)
  | .ok _, .error _ => isFalse (fun hh => Except.noConfusion hh)

/-! ## Specification-side helper definitions -/

/-- Convenience: the character list of a string literal. -/
def strL (s : String) : PStr := s.data

/-- Whether a member is a direct child of directory path `d` (its cleaned
path's parent directory is `d`). -/
def isChildOf (d : PStr) (m : TarMember) : Bool :=
  pathDirL (pathCleanL m.name) = d

/-- The direct children of directory path `d` among the archive members, in
archive encounter order. -/
def directChildren (ms : List TarMember) (d : PStr) : List TarMember :=
  ms.filter (isChildOf d)

/-- The cleaned path of member `i`. -/
def cleanAt (ms : List TarMember) (i : Nat) : PStr :=
  pathCleanL ((ms.getD i default).name)

/-- The path under which arena slot `j` was registered: slot 0 is the root
(key `.`), slot `i + 1` is member `i`. -/
def pathAt (ms : List TarMember) (j : Nat) : PStr :=
  match j with
  | 0 => ['.']
  | i + 1 => cleanAt ms i

/-- The arena indices of the children `tarfs.New` links under path `d`:
slot `i + 1` for every member `i` whose parent directory is `d`, in
encounter order. -/
def childIdxs (ms : List TarMember) (d : PStr) : List Nat :=
  ((List.range ms.length).filter (fun i => isChildOf d (ms.getD i default))).map (· + 1)

/-- The bindings `tarfs.New` pushes into the path map while scanning `ms`,
most recent first, with arena indices counted from `k`. -/
def bindingsFrom (k : Nat) : List TarMember → List (PStr × Nat)
  | [] => []
  | m :: ms => bindingsFrom (k + 1) ms ++ [(pathCleanL m.name, k)]

/-- The header/offset/size triple of an entry (everything except the child
list, which `tarfs.New` keeps mutating). -/
def entryCore (e : Entry) : HeaderM × Nat × Nat := (e.header, e.offset, e.size)

/-- The component `..` leads: in a cleaned relative path all `..`
components come first. -/
def leadDD : List PStr → Prop
  | [] => True
  | c :: cs => if c = dd then leadDD cs else dd ∉ c :: cs

/-- A well-formed path component: nonempty, not `.`, and slash-free. -/
def goodComp (c : PStr) : Prop := c ≠ [] ∧ c ≠ ['.'] ∧ '/' ∉ c

/-- The invariant of `cleanStack`'s output stack (head = top): every
component is well formed and the `..` components sit at the bottom. -/
def goodStack : List PStr → Prop
  | [] => True
  | c :: rest => (if c = dd then ∀ x ∈ rest, x = dd else goodStack rest)

/-- The invariant of a cleaned path's component list. -/
def invComps (rooted : Bool) (cs : List PStr) : Prop :=
  (∀ c ∈ cs, goodComp c) ∧ leadDD cs ∧ (rooted = true → dd ∉ cs)

/-! ## Concrete archives used as witnesses and counterexamples -/

/-- The spec's concrete test archive: `dir1/`, `dir1/dir2/`, `file1.txt`,
`dir1/file2.txt`, `dir1/dir2/file3.txt` (contents shortened to a few
bytes; only lengths and identities matter to the claims). -/
def exArchive : List TarMember :=
  [{ typeflag := tarTypeDir, name := strL "dir1", linkname := [], content := [],
     mode := 493, modTime := 10 },
   { typeflag := tarTypeDir, name := strL "dir1/dir2", linkname := [], content := [],
     mode := 493, modTime := 10 },
   { typeflag := tarTypeReg, name := strL "file1.txt", linkname := [], content := [72, 105],
     mode := 420, modTime := 10 },
   { typeflag := tarTypeReg, name := strL "dir1/file2.txt", linkname := [], content := [97],
     mode := 420, modTime := 10 },
   { typeflag := tarTypeReg, name := strL "dir1/dir2/file3.txt", linkname := [], content := [98],
     mode := 420, modTime := 10 }]

/-- An archive with a hard-link chain: `top` links to `mid`, which links to
the regular file `base`. -/
def linkChainArchive : List TarMember :=
  [{ typeflag := tarTypeReg, name := strL "base", linkname := [], content := [100, 97, 116, 97],
     mode := 420, modTime := 10 },
   { typeflag := tarTypeLink, name := strL "mid", linkname := strL "base", content := [],
     mode := 420, modTime := 10 },
   { typeflag := tarTypeLink, name := strL "top", linkname := strL "mid", content := [],
     mode := 420, modTime := 10 }]

/-- An archive with one hard link pointing at a regular file. -/
def linkOkArchive : List TarMember :=
  [{ typeflag := tarTypeReg, name := strL "base", linkname := [], content := [100, 97, 116, 97],
     mode := 420, modTime := 10 },
   { typeflag := tarTypeLink, name := strL "alias", linkname := strL "base", content := [],
     mode := 420, modTime := 10 }]

/-- A cache state holding one registered layer file, as left behind by one
materialization in scratch directory 0. -/
def exCacheSt : CacheSt :=
  { cacheDir := some 0, layerCache := [("sha256:aa", (0, 0))],
    disk := [((0, 0), exArchive)], nextDirId := 1 }

/-- The empty cache state of a fresh process. -/
def emptyCacheSt : CacheSt :=
  { cacheDir := none, layerCache := [], disk := [], nextDirId := 0 }

/-- The handle `Open("dir1")` yields on the example archive. -/
def exDir1Handle : FHandle :=
  ((tarfsNew exArchive).openFile (strL "dir1")).toOption.getD default

/-- The regular-file member `file1.txt` of the example archive. -/
def exFile1 : TarMember := exArchive.getD 2 default

/-- The members before `file1.txt` in the example archive. -/
def exPre : List TarMember := exArchive.take 2

/-- The members after `file1.txt` in the example archive. -/
def exPost : List TarMember := exArchive.drop 3

/-- An archive in which the same path `dir1/a` occurs twice (tar permits
repeated names; overlay layers produce them routinely). -/
def dupArchive : List TarMember :=
  [{ typeflag := tarTypeDir, name := strL "dir1", linkname := [], content := [],
     mode := 493, modTime := 10 },
   { typeflag := tarTypeReg, name := strL "dir1/a", linkname := [], content := [120],
     mode := 420, modTime := 10 },
   { typeflag := tarTypeReg, name := strL "dir1/a", linkname := [], content := [121],
     mode := 420, modTime := 10 }]

/-! ## General list lemmas -/

theorem getD_append_left {α : Type} (l₁ l₂ : List α) (i : Nat) (d : α)
    (h : i < l₁.length) : (l₁ ++ l₂).getD i d = l₁.getD i d := by
  induction l₁ generalizing i with
  | nil => simp at h
  | cons x xs ih =>
    cases i with
    | zero => rfl
    | succ j => simpa using ih j (by simpa using h)

theorem getD_append_right {α : Type} (l₁ l₂ : List α) (j : Nat) (d : α) :
    (l₁ ++ l₂).getD (l₁.length + j) d = l₂.getD j d := by
  induction l₁ with
  | nil => simp
  | cons x xs ih => simpa [Nat.succ_add] using ih

theorem getD_set {α : Type} (l : List α) (i j : Nat) (x : α) (d : α) :
    (l.set j x).getD i d = if j = i ∧ j < l.length then x else l.getD i d := by
  induction l generalizing i j with
  | nil => simp
  | cons y ys ih =>
    cases j with
    | zero =>
      cases i with
      | zero => simp
      | succ k => simp
    | succ j' =>
      cases i with
      | zero => simp
      | succ k =>
        simp only [List.set, List.getD_cons_succ, ih, List.length_cons]
        by_cases h1 : j' = k ∧ j' < ys.length
        · rw [if_pos h1, if_pos (by omega)]
        · rw [if_neg h1, if_neg (by omega)]

theorem take_len_append {α : Type} (l₁ l₂ : List α) :
    (l₁ ++ l₂).take l₁.length = l₁ := by
  induction l₁ with
  | nil => simp
  | cons x xs ih => simp [ih]

theorem drop_len_add {α : Type} (l₁ l₂ : List α) (k : Nat) :
    (l₁ ++ l₂).drop (l₁.length + k) = l₂.drop k := by
  induction l₁ with
  | nil => simp
  | cons x xs ih => simp [Nat.succ_add, ih]

/-! ## C10: operations on an uninitialized layer -/

/-- C10: on a layer whose filesystem has never been initialized
(`l.fs == nil`), both `GetFiles` and `ReadFile` fail with the
`layer not initialized` error for every path; being pure functions of the
layer value, they leave the layer's state unchanged. -/
theorem c10_uninitialized_layer (dID : String) (p : PStr) :
    (LayerM.mk dID none).getFiles p = .error .notInitialized ∧
    (LayerM.mk dID none).readFile p = .error .notInitialized :=
  ⟨rfl, rfl⟩

/-! ## C7: cache-hit failures fall through to extraction -/

/-- C7: when the cache maps the layer's diff identifier to a path but
opening the cached file or re-indexing it fails, `InitializeLayer` behaves
exactly as on a cache miss: the outcome is that of fresh extraction, never
an error from the cache stage. -/
theorem c7_cache_failure_falls_through (openOk indexOk : Bool)
    (ext : Except String Unit) (h : (openOk && indexOk) = false) :
    initializeLayerOutcome false true openOk indexOk ext =
      initializeLayerOutcome false false openOk indexOk ext ∧
    initializeLayerOutcome false true openOk indexOk ext =
      ext.map (fun _ => .extracted) := by
  cases openOk <;> cases indexOk <;>
    simp_all [initializeLayerOutcome, initializeFromCacheB]

/-- Witness for C7: with a cached path whose file no longer opens, the
outcome equals the fresh-extraction outcome. -/
theorem c7_witness :
    ((false && true) = false) ∧
    (initializeLayerOutcome false true false true (.ok ()) =
        initializeLayerOutcome false false false true (.ok ()) ∧
      initializeLayerOutcome false true false true (.ok ()) =
        (Except.ok () |>.map (fun _ => .extracted))) :=
  ⟨by decide, c7_cache_failure_falls_through false true (.ok ()) (by decide)⟩

/-! ## C2: progress monotonicity (violated by the code) -/

/-- C2: evaluation at a concrete successful extraction (declared size 13,
one 13-byte read with the throttle window not elapsed): the reported
sequence is `[0, 0.2, 1, 0.8, 1]` — the copy loop's final `1.0` is followed
by the post-copy `0.8` — so the sequence is not monotonically
non-decreasing, although its last element is `1.0`. -/
theorem c2_progress_eval :
    initializeLayerReports
        { alreadyInit := false, cachedFound := false, openOk := false,
          cacheIndexOk := false, total := 13, chunks := [(13, false)] } =
      [0, 1/5, 1, 4/5, 1] ∧
    ¬ monotoneReports [0, 1/5, 1, 4/5, 1] ∧
    ([0, 1/5, 1, 4/5, 1] : List ℚ).getLast? = some 1 := by
  refine ⟨?_, ?_, by simp⟩
  · norm_num [initializeLayerReports, createNewLayerReports, prReports, clampRatio]
  · norm_num [monotoneReports, List.chain'_cons]

/-! ## C9: cleanup idempotence -/

/-- Counterexample to C9 as stated: after a first successful `CleanupCache`
call (error `nil`) on a state with one cached file, the scratch-directory
reference has NOT been cleared — `cacheDir` still holds the directory. -/
theorem c9_counterexample :
    (cleanupCacheM exCacheSt).2.2 = none ∧
    (cleanupCacheM exCacheSt).1.cacheDir = some 0 := by
  decide

/-- C9 (amended): a second `CleanupCache` call is still safe — it attempts
no file removals, returns no error, and leaves the state unchanged — but
only because the mapping was cleared; the directory reference itself is
never cleared, and the second call re-runs the (now trivial) directory
removal.  Cleanup on a state whose scratch directory was never created is a
complete no-op. -/
theorem c9_cleanup_idempotent (st : CacheSt)
    (lc : List (String × CPath)) (dk : List (CPath × List TarMember)) (nd : Nat) :
    cleanupCacheM ((cleanupCacheM st).1) = ((cleanupCacheM st).1, [], none) ∧
    cleanupCacheM ⟨none, lc, dk, nd⟩ = (⟨none, lc, dk, nd⟩, [], none) := by
  constructor
  · rcases st with ⟨cd, lc', dk', nd'⟩
    cases cd with
    | none => rfl
    | some d =>
      have hidem : ∀ (p : CPath × List TarMember → Bool) (l : List (CPath × List TarMember)),
          (l.filter p).filter p = l.filter p := by
        intro p l
        induction l with
        | nil => rfl
        | cons x xs ih => by_cases h : p x <;> simp [List.filter_cons, h, ih]
      have hall : ∀ (l : List (CPath × List TarMember)),
          l.filter (fun e => e.1 ∉ ([] : List CPath)) = l := by
        intro l
        induction l with
        | nil => rfl
        | cons x xs ih => simp [List.filter_cons, ih]
      simp [cleanupCacheM, hall, hidem]
  · rfl

/-! ## C8: cache reuse across layers sharing a diff identifier -/

/-- C8: when two distinct layer objects (both with `fs == nil`) share a diff
identifier not yet in the cache and are materialized one after the other,
the blob-source stream function (`layer.Uncompressed`) is invoked exactly
once by the first materialization and not at all by the second, which finds
the identifier in the cache and re-indexes the cached file. -/
theorem c8_cache_reuse (diffID : String) (blob blob2 : List TarMember)
    (st : CacheSt) (hmiss : lookupS st.layerCache diffID = none) :
    (materializeLayerM diffID blob none st).2.2 = 1 ∧
    (materializeLayerM diffID blob2 none
        (materializeLayerM diffID blob none st).2.1).2.2 = 0 := by
  cases hcd : st.cacheDir <;>
    simp [materializeLayerM, getCacheFilePathM, hmiss, hcd, lookupS, lookupD]

/-- Witness for C8: a fresh process state, one extraction then a cache
hit. -/
theorem c8_witness :
    lookupS emptyCacheSt.layerCache "sha256:aa" = none ∧
    ((materializeLayerM "sha256:aa" exArchive none emptyCacheSt).2.2 = 1 ∧
      (materializeLayerM "sha256:aa" exArchive none
          (materializeLayerM "sha256:aa" exArchive none emptyCacheSt).2.1).2.2 = 0) :=
  ⟨rfl, c8_cache_reuse "sha256:aa" exArchive exArchive emptyCacheSt rfl⟩

/-! ## C3: ReadDir pagination -/

theorem take_min_len {α : Type} (l : List α) (n : Nat) :
    l.take (min n l.length) = l.take n := by
  rcases Nat.le_total n l.length with h | h
  · rw [Nat.min_eq_left h]
  · rw [Nat.min_eq_right h, List.take_of_length_le h,
      List.take_of_length_le (Nat.le_refl _)]

/-- C3: `ReadDir` pagination on a directory handle.  With the cursor at or
past the end of the child list (`readPos = length + k`): a non-positive
count `-(j)` returns an empty listing and no error, leaving the handle
unchanged, while a positive count `j+1` fails with `io.EOF`.  With the
cursor strictly inside the list (children `cs1 ++ c :: cs2`, cursor at
`|cs1|`), a positive count `j+1` returns up to `j+1` children starting at
the cursor and advances the cursor by the number actually returned. -/
theorem c3_readDir_pagination (nm ln : PStr) (hsz hmo hmt off sz : Nat)
    (cs cs1 cs2 : List Entry) (c : Entry) (k j : Nat) :
    (FHandle.readDir ⟨⟨tarTypeDir, nm, ln, hsz, hmo, hmt⟩, off, sz, cs, cs.length + k⟩
        (-(j : Int)) =
      .ok ([], ⟨⟨tarTypeDir, nm, ln, hsz, hmo, hmt⟩, off, sz, cs, cs.length + k⟩)) ∧
    (FHandle.readDir ⟨⟨tarTypeDir, nm, ln, hsz, hmo, hmt⟩, off, sz, cs, cs.length + k⟩
        ((j : Int) + 1) =
      .error .endOfListing) ∧
    (FHandle.readDir
        ⟨⟨tarTypeDir, nm, ln, hsz, hmo, hmt⟩, off, sz, cs1 ++ c :: cs2, cs1.length⟩
        ((j : Int) + 1) =
      .ok (((c :: cs2).take (j + 1)).map (·.header),
           ⟨⟨tarTypeDir, nm, ln, hsz, hmo, hmt⟩, off, sz, cs1 ++ c :: cs2,
            cs1.length + (((c :: cs2).take (j + 1)).map (·.header)).length⟩)) := by
  refine ⟨?_, ?_, ?_⟩
  · simp [FHandle.readDir, tarTypeDir, Nat.sub_eq_zero_of_le]
  · simp [FHandle.readDir, tarTypeDir, Nat.sub_eq_zero_of_le]
  · have hdrop : (cs1 ++ c :: cs2).drop cs1.length = c :: cs2 := by
      have h0 := drop_len_add cs1 (c :: cs2) 0
      simp only [Nat.add_zero, List.drop_zero] at h0
      exact h0
    have htn : ((j : Int) + 1).toNat = j + 1 := by omega
    have hmin : (c :: cs2).take ((j + 1) ⊓ (cs2.length + 1)) = (c :: cs2).take (j + 1) := by
      have hl : cs2.length + 1 = (c :: cs2).length := by simp
      rw [hl, take_min_len]
    simp [FHandle.readDir, tarTypeDir, htn, hdrop, hmin, List.length_take]
    rw [if_neg (by omega : ¬ ((j : Int) + 1 ≤ 0)), Nat.succ_min_succ]
    refine ⟨?_, rfl⟩
    rw [List.take_succ_cons]
    have hl2 : cs2.length = (cs2.map (·.header)).length := by simp
    rw [hl2, take_min_len]

/-! ## C4: repeated ReadDir(1) equals ReadDir(-1) -/

theorem openFile_ok_readPos (fs : FSm) (p : PStr) (f : FHandle)
    (h : fs.openFile p = .ok f) : f.readPos = 0 := by
  unfold FSm.openFile at h
  rcases h1 : lookupFM fs.fileMap p with _ | i
  · rw [h1] at h
    exact Except.noConfusion h
  · rw [h1] at h
    dsimp only at h
    by_cases h2 : (fs.entries.getD i rootEntry).header.typeflag = tarTypeLink
    · rw [if_pos h2] at h
      rcases h3 : lookupFM fs.fileMap (fs.entries.getD i rootEntry).header.linkname
        with _ | j
      · rw [h3] at h
        exact Except.noConfusion h
      · rw [h3] at h
        rw [← Except.ok.inj h]
        rfl
    · rw [if_neg h2] at h
      rw [← Except.ok.inj h]
      rfl

theorem readAllOnesAux_spec (fuel : Nat) (f : FHandle)
    (hdir : f.header.typeflag = tarTypeDir)
    (hfuel : f.children.length - f.readPos < fuel) :
    readAllOnesAux fuel f = (f.children.drop f.readPos).map (·.header) := by
  induction fuel generalizing f with
  | zero => omega
  | succ fuel ih =>
    cases hrem : f.children.length - f.readPos with
    | zero =>
      have hnil : f.children.drop f.readPos = [] :=
        List.drop_eq_nil_of_le (by omega)
      simp [readAllOnesAux, FHandle.readDir, hdir, hrem, hnil]
    | succ k =>
      have hne : f.children.drop f.readPos ≠ [] := by
        intro hc
        have := congrArg List.length hc
        simp [List.length_drop] at this
        omega
      rcases hd : f.children.drop f.readPos with _ | ⟨e, rest⟩
      · exact absurd hd hne
      have hrest : rest = f.children.drop (f.readPos + 1) := by
        have h1 := List.drop_drop 1 f.readPos f.children
        rw [hd] at h1
        simpa using h1
      have hone : f.readDir 1 =
          .ok ([e.header], { f with readPos := f.readPos + 1 }) := by
        simp only [FHandle.readDir, hdir, hrem]
        have hmin : min (Int.toNat 1) (k + 1) = 1 := by omega
        simp [hmin, hd]
      rw [readAllOnesAux, hone]
      have hih := ih { f with readPos := f.readPos + 1 } hdir (by simp; omega)
      simp only at hih
      dsimp only
      rw [hih, ← hrest]
      simp

theorem readDir_neg_all (f : FHandle)
    (hdir : f.header.typeflag = tarTypeDir) (hrp : f.readPos = 0) :
    f.readDir (-1) = .ok (f.children.map (·.header),
      { f with readPos := f.children.length }) := by
  rcases f with ⟨hf, o, s, ch, rp⟩
  simp only at hdir hrp
  subst hrp
  cases ch with
  | nil => simp [FHandle.readDir, hdir]
  | cons e cs =>
    simp only [FHandle.readDir, hdir, Nat.sub_zero]
    have htk : (e :: cs).take ((e :: cs).length) = e :: cs := List.take_length _
    simp [htk]

/-- C4: for a freshly opened directory handle, repeated `ReadDir(1)` until
exhaustion enumerates exactly the same header sequence, in the same order,
as a single `ReadDir(-1)` on the same fresh handle: both yield the child
list in indexing order. -/
theorem c4_pagination_agrees (ms : List TarMember) (p : PStr) (f : FHandle)
    (hopen : (tarfsNew ms).openFile p = .ok f)
    (hdir : f.header.typeflag = tarTypeDir) :
    readAllOnes f = f.children.map (·.header) ∧
    f.readDir (-1) = .ok (f.children.map (·.header),
      { f with readPos := f.children.length }) := by
  have hrp := openFile_ok_readPos _ _ _ hopen
  constructor
  · have := readAllOnesAux_spec (f.children.length + 1) f hdir (by omega)
    rw [readAllOnes, this, hrp, List.drop_zero]
  · exact readDir_neg_all f hdir hrp

set_option maxRecDepth 40000 in
/-- Witness for C4: the example archive's `dir1` handle, enumerated both
ways. -/
theorem c4_witness :
    ((tarfsNew exArchive).openFile (strL "dir1") = .ok exDir1Handle) ∧
    exDir1Handle.header.typeflag = tarTypeDir ∧
    (readAllOnes exDir1Handle = exDir1Handle.children.map (·.header) ∧
      exDir1Handle.readDir (-1) = .ok (exDir1Handle.children.map (·.header),
        { exDir1Handle with readPos := exDir1Handle.children.length })) :=
  ⟨by decide, by decide,
    c4_pagination_agrees exArchive (strL "dir1") exDir1Handle (by decide) (by decide)⟩

/-! ## Structure of the built index -/

theorem tarfsNew_entries (ms : List TarMember) :
    (tarfsNew ms).entries = (buildIndex 0 [rootEntry] [(['.'], 0)] ms).1 := rfl

theorem tarfsNew_fileMap (ms : List TarMember) :
    (tarfsNew ms).fileMap = (buildIndex 0 [rootEntry] [(['.'], 0)] ms).2 := rfl

theorem tarfsNew_stream (ms : List TarMember) :
    (tarfsNew ms).stream = tarStream ms := rfl

theorem entryCore_appendChild (a : List Entry) (pz c i : Nat) :
    entryCore ((appendChild a pz c).getD i rootEntry) =
      entryCore (a.getD i rootEntry) := by
  unfold appendChild
  rw [getD_set]
  split
  · rename_i hcond
    rw [← hcond.1]
    rfl
  · rfl

theorem length_appendChild (a : List Entry) (pz c : Nat) :
    (appendChild a pz c).length = a.length := by
  unfold appendChild
  exact List.length_set a pz _

theorem getD_append_singleton {α : Type} (a : List α) (x : α) (d : α) :
    (a ++ [x]).getD a.length d = x := by
  have h := getD_append_right a [x] 0 d
  simp only [Nat.add_zero] at h
  rw [h]
  rfl

theorem buildIndex_length (ms : List TarMember) :
    ∀ (pos : Nat) (a : List Entry) (f : List (PStr × Nat)),
      (buildIndex pos a f ms).1.length = a.length + ms.length := by
  induction ms with
  | nil => intro pos a f; simp [buildIndex]
  | cons m ms ih =>
    intro pos a f
    simp only [buildIndex]
    cases hpar : lookupFM ((pathCleanL m.name, a.length) :: f)
        (pathDirL (pathCleanL m.name)) with
    | none =>
      rw [ih]
      simp [Nat.add_assoc, Nat.add_comm 1 ms.length]
    | some pz =>
      rw [ih]
      simp [length_appendChild, Nat.add_assoc, Nat.add_comm 1 ms.length]

theorem buildIndex_fmap (ms : List TarMember) :
    ∀ (pos : Nat) (a : List Entry) (f : List (PStr × Nat)),
      (buildIndex pos a f ms).2 = bindingsFrom a.length ms ++ f := by
  induction ms with
  | nil => intro pos a f; simp [buildIndex, bindingsFrom]
  | cons m ms ih =>
    intro pos a f
    simp only [buildIndex]
    cases hpar : lookupFM ((pathCleanL m.name, a.length) :: f)
        (pathDirL (pathCleanL m.name)) with
    | none =>
      rw [ih]
      simp [bindingsFrom, List.append_assoc]
    | some pz =>
      rw [ih]
      simp [bindingsFrom, length_appendChild, List.append_assoc]

theorem buildIndex_core_preserved (ms : List TarMember) :
    ∀ (pos : Nat) (a : List Entry) (f : List (PStr × Nat)) (i : Nat), i < a.length →
      entryCore ((buildIndex pos a f ms).1.getD i rootEntry) =
        entryCore (a.getD i rootEntry) := by
  induction ms with
  | nil => intro pos a f i _; rfl
  | cons m ms ih =>
    intro pos a f i hi
    simp only [buildIndex]
    cases hpar : lookupFM ((pathCleanL m.name, a.length) :: f)
        (pathDirL (pathCleanL m.name)) with
    | none =>
      rw [ih _ _ _ i (by simp; omega)]
      rw [getD_append_left _ _ _ _ hi]
    | some pz =>
      rw [ih _ _ _ i (by simp [length_appendChild]; omega)]
      rw [entryCore_appendChild, getD_append_left _ _ _ _ hi]

theorem buildIndex_core_new (ms : List TarMember) :
    ∀ (pos : Nat) (a : List Entry) (f : List (PStr × Nat)) (j : Nat), j < ms.length →
      entryCore ((buildIndex pos a f ms).1.getD (a.length + j) rootEntry) =
        (headerOf (ms.getD j default), pos + blocksLen (ms.take j) + 512,
          (ms.getD j default).content.length) := by
  induction ms with
  | nil => intro pos a f j hj; simp at hj
  | cons m ms ih =>
    intro pos a f j hj
    simp only [buildIndex]
    cases j with
    | zero =>
      cases hpar : lookupFM ((pathCleanL m.name, a.length) :: f)
          (pathDirL (pathCleanL m.name)) with
      | none =>
        dsimp only
        rw [buildIndex_core_preserved ms _ _ _ _ (by simp)]
        rw [Nat.add_zero, getD_append_singleton]
        simp [blocksLen, entryCore, newEntry]
      | some pz =>
        dsimp only
        rw [buildIndex_core_preserved ms _ _ _ _ (by simp [length_appendChild])]
        rw [Nat.add_zero, entryCore_appendChild, getD_append_singleton]
        simp [blocksLen, entryCore, newEntry]
    | succ j' =>
      have hj' : j' < ms.length := by
        simp only [List.length_cons] at hj
        omega
      cases hpar : lookupFM ((pathCleanL m.name, a.length) :: f)
          (pathDirL (pathCleanL m.name)) with
      | none =>
        dsimp only
        have hrec := ih (pos + 512 + padTo512 m.content.length)
          (a ++ [newEntry m pos]) ((pathCleanL m.name, a.length) :: f) j' hj'
        rw [List.length_append, List.length_singleton] at hrec
        have hidx : a.length + (j' + 1) = a.length + 1 + j' := by omega
        rw [hidx, hrec]
        simp only [List.getD_cons_succ, List.take_succ_cons, blocksLen, Prod.mk.injEq]
        exact ⟨trivial, by omega, trivial⟩
      | some pz =>
        dsimp only
        have hrec := ih (pos + 512 + padTo512 m.content.length)
          (appendChild (a ++ [newEntry m pos]) pz a.length)
          ((pathCleanL m.name, a.length) :: f) j' hj'
        rw [length_appendChild, List.length_append, List.length_singleton] at hrec
        have hidx : a.length + (j' + 1) = a.length + 1 + j' := by omega
        rw [hidx, hrec]
        simp only [List.getD_cons_succ, List.take_succ_cons, blocksLen, Prod.mk.injEq]
        exact ⟨trivial, by omega, trivial⟩

/-! ## The byte stream and map lookups -/

theorem padTo512_ge (n : Nat) : n ≤ padTo512 n := by
  unfold padTo512
  have h1 := Nat.div_add_mod (n + 511) 512
  have h2 : (n + 511) % 512 < 512 := Nat.mod_lt _ (by norm_num)
  omega

theorem memberBlock_length (m : TarMember) :
    (memberBlock m).length = 512 + padTo512 m.content.length := by
  unfold memberBlock
  rw [List.length_append, List.length_append, List.length_replicate,
    List.length_replicate]
  have := padTo512_ge m.content.length
  omega

theorem blockBytes_append (xs ys : List TarMember) :
    blockBytes (xs ++ ys) = blockBytes xs ++ blockBytes ys := by
  induction xs with
  | nil => rfl
  | cons x xs ih => simp [blockBytes, ih]

theorem blockBytes_length (ms : List TarMember) :
    (blockBytes ms).length = blocksLen ms := by
  induction ms with
  | nil => rfl
  | cons m ms ih => simp [blockBytes, blocksLen, memberBlock_length, ih]

theorem drop_len {α : Type} (l₁ l₂ : List α) : (l₁ ++ l₂).drop l₁.length = l₂ := by
  have h := drop_len_add l₁ l₂ 0
  simp only [Nat.add_zero, List.drop_zero] at h
  exact h

theorem stream_slice (pre post : List TarMember) (m : TarMember) :
    ((tarStream (pre ++ m :: post)).drop (blocksLen pre + 512)).take
        m.content.length = m.content := by
  unfold tarStream
  rw [blockBytes_append, List.append_assoc, ← blockBytes_length pre, drop_len_add]
  show ((blockBytes (m :: post) ++ _).drop 512).take _ = _
  simp only [blockBytes, memberBlock, List.append_assoc]
  have hdrop : (List.replicate 512 (0 : UInt8) ++
      (m.content ++ (List.replicate (padTo512 m.content.length - m.content.length) 0 ++
        (blockBytes post ++ List.replicate 1024 0)))).drop 512 =
      m.content ++ (List.replicate (padTo512 m.content.length - m.content.length) 0 ++
        (blockBytes post ++ List.replicate 1024 0)) := by
    have h := drop_len (List.replicate 512 (0 : UInt8))
      (m.content ++ (List.replicate (padTo512 m.content.length - m.content.length) 0 ++
        (blockBytes post ++ List.replicate 1024 0)))
    rwa [List.length_replicate] at h
  rw [hdrop]
  exact take_len_append m.content _

theorem lookupFM_append_skip (l₁ l₂ : List (PStr × Nat)) (key : PStr)
    (h : ∀ kv ∈ l₁, kv.1 ≠ key) :
    lookupFM (l₁ ++ l₂) key = lookupFM l₂ key := by
  induction l₁ with
  | nil => rfl
  | cons kv rest ih =>
    rcases kv with ⟨k, v⟩
    have hk : k ≠ key := h (k, v) (by simp)
    simp only [List.cons_append, lookupFM, if_neg hk]
    exact ih (fun kv hkv => h kv (by simp [hkv]))

theorem bindingsFrom_mem (ms : List TarMember) :
    ∀ (k : Nat) (kv : PStr × Nat), kv ∈ bindingsFrom k ms →
      ∃ i, i < ms.length ∧ kv.1 = pathCleanL ((ms.getD i default).name) := by
  induction ms with
  | nil => intro k kv h; simp [bindingsFrom] at h
  | cons m ms ih =>
    intro k kv h
    simp only [bindingsFrom, List.mem_append, List.mem_singleton] at h
    rcases h with h | h
    · rcases ih (k + 1) kv h with ⟨i, hi, hkv⟩
      exact ⟨i + 1, by simpa using hi, by simpa using hkv⟩
    · exact ⟨0, by simp, by simp [h]⟩

theorem bindingsFrom_split (xs : List TarMember) :
    ∀ (ys : List TarMember) (k : Nat),
      bindingsFrom k (xs ++ ys) = bindingsFrom (k + xs.length) ys ++ bindingsFrom k xs := by
  induction xs with
  | nil => intro ys k; simp [bindingsFrom]
  | cons x xs ih =>
    intro ys k
    show bindingsFrom (k + 1) (xs ++ ys) ++ [(pathCleanL x.name, k)] = _
    rw [ih ys (k + 1), List.append_assoc]
    have harith : k + 1 + xs.length = k + (x :: xs).length := by simp; omega
    rw [harith]
    rfl

/-! ## C1: ReadFile returns a member's exact content -/

theorem openFile_resolved (fs : FSm) (p : PStr) (i : Nat)
    (hlk : lookupFM fs.fileMap p = some i)
    (hnl : (fs.entries.getD i rootEntry).header.typeflag ≠ tarTypeLink) :
    fs.openFile p = .ok (mkHandle fs (fs.entries.getD i rootEntry)) := by
  unfold FSm.openFile
  rw [hlk]
  dsimp only
  rw [if_neg hnl]

/-- C1: for a regular-file member `m` present in the archive under its
cleaned path (no later member re-uses that cleaned path), `ReadFile` on an
initialized layer returns exactly `m`'s content bytes, and the size the
indexed header records for that path equals the length of the returned
bytes. -/
theorem c1_readFile_exact (d : String) (pre post : List TarMember) (m : TarMember)
    (hreg : m.typeflag = tarTypeReg)
    (hshadow : ∀ m' ∈ post, pathCleanL m'.name ≠ pathCleanL m.name) :
    LayerM.readFile ⟨d, some (tarfsNew (pre ++ m :: post))⟩ (pathCleanL m.name) =
      .ok m.content ∧
    FSm.statSize (tarfsNew (pre ++ m :: post)) (pathCleanL m.name) =
      some m.content.length := by
  have hfm : (tarfsNew (pre ++ m :: post)).fileMap =
      bindingsFrom (1 + pre.length + 1) post ++
        ([(pathCleanL m.name, 1 + pre.length)] ++
          (bindingsFrom 1 pre ++ [(['.'], 0)])) := by
    rw [tarfsNew_fileMap, buildIndex_fmap, bindingsFrom_split pre (m :: post) _]
    show (bindingsFrom (1 + pre.length + 1) post ++ [(pathCleanL m.name, 1 + pre.length)]) ++
        bindingsFrom 1 pre ++ [(['.'], 0)] = _
    simp [List.append_assoc]
  have hlk : lookupFM (tarfsNew (pre ++ m :: post)).fileMap (pathCleanL m.name) =
      some (1 + pre.length) := by
    rw [hfm, lookupFM_append_skip]
    · simp [lookupFM]
    · intro kv hkv
      rcases bindingsFrom_mem post _ kv hkv with ⟨i, hi, hkey⟩
      have hmem : post.getD i default ∈ post := by
        rw [List.getD_eq_getElem?_getD, List.getElem?_eq_getElem hi]
        exact List.getElem_mem _
      rw [hkey]
      exact hshadow _ hmem
  have hms : (pre ++ m :: post).getD pre.length default = m := by
    have h := getD_append_right pre (m :: post) 0 default
    simp only [Nat.add_zero] at h
    rw [h]
    rfl
  have hcore : entryCore ((tarfsNew (pre ++ m :: post)).entries.getD
      (1 + pre.length) rootEntry) = (headerOf m, blocksLen pre + 512, m.content.length) := by
    rw [tarfsNew_entries]
    have h := buildIndex_core_new (pre ++ m :: post) 0 [rootEntry] [(['.'], 0)]
      pre.length (by simp)
    simp only [List.length_singleton, Nat.zero_add] at h
    rw [h, hms, take_len_append]
  have hh : ((tarfsNew (pre ++ m :: post)).entries.getD (1 + pre.length) rootEntry).header =
      headerOf m := congrArg Prod.fst hcore
  have ho : ((tarfsNew (pre ++ m :: post)).entries.getD (1 + pre.length) rootEntry).offset =
      blocksLen pre + 512 := congrArg (fun x => x.2.1) hcore
  have hs : ((tarfsNew (pre ++ m :: post)).entries.getD (1 + pre.length) rootEntry).size =
      m.content.length := congrArg (fun x => x.2.2) hcore
  have hopen : (tarfsNew (pre ++ m :: post)).openFile (pathCleanL m.name) =
      .ok (mkHandle (tarfsNew (pre ++ m :: post))
        ((tarfsNew (pre ++ m :: post)).entries.getD (1 + pre.length) rootEntry)) := by
    apply openFile_resolved _ _ _ hlk
    rw [hh]
    simp [headerOf, hreg, tarTypeReg, tarTypeLink]
  have hrfb : (tarfsNew (pre ++ m :: post)).readFileBytes (pathCleanL m.name) =
      .ok m.content := by
    unfold FSm.readFileBytes
    rw [hopen]
    dsimp only [Except.map, mkHandle]
    rw [ho, hs, tarfsNew_stream, stream_slice]
  constructor
  · unfold LayerM.readFile
    dsimp only
    rw [hrfb]
  · unfold FSm.statSize
    rw [hopen]
    dsimp only [Except.map, mkHandle, Except.toOption]
    rw [hh]
    rfl

set_option maxRecDepth 200000 in
/-- Witness for C1: reading `file1.txt` from the example archive yields its
two content bytes. -/
theorem c1_witness :
    exFile1.typeflag = tarTypeReg ∧
    (∀ m' ∈ exPost, pathCleanL m'.name ≠ pathCleanL exFile1.name) ∧
    (LayerM.readFile ⟨"d", some (tarfsNew (exPre ++ exFile1 :: exPost))⟩
        (pathCleanL exFile1.name) = .ok exFile1.content ∧
      FSm.statSize (tarfsNew (exPre ++ exFile1 :: exPost)) (pathCleanL exFile1.name) =
        some exFile1.content.length) :=
  ⟨by decide, by decide,
    c1_readFile_exact "d" exPre exPost exFile1 (by decide) (by decide)⟩

/-! ## C5: hard-link resolution -/

/-- C5 (amended): for a hard-link entry under path `p`, `Open` redirects to
the entry registered under the link's raw target name: if no entry is
registered there, it fails with the distinct link-target error (not
`NotExist`); if one is, the returned handle is that entry's handle, and
whenever the target entry is not itself a hard link (only one level of
links is resolved) the content read through the link is identical to
opening the target path directly. -/
theorem c5_hard_link (fs : FSm) (p : PStr) (i : Nat)
    (hlk : lookupFM fs.fileMap p = some i)
    (hlink : (fs.entries.getD i rootEntry).header.typeflag = tarTypeLink) :
    (lookupFM fs.fileMap (fs.entries.getD i rootEntry).header.linkname = none →
      fs.openFile p = .error (.linkTargetMissing p
        (fs.entries.getD i rootEntry).header.linkname)) ∧
    (∀ j, lookupFM fs.fileMap (fs.entries.getD i rootEntry).header.linkname = some j →
      fs.openFile p = .ok (mkHandle fs (fs.entries.getD j rootEntry)) ∧
      ((fs.entries.getD j rootEntry).header.typeflag ≠ tarTypeLink →
        fs.readFileBytes p =
          fs.readFileBytes (fs.entries.getD i rootEntry).header.linkname)) := by
  constructor
  · intro hnone
    unfold FSm.openFile
    rw [hlk]
    dsimp only
    rw [if_pos hlink, hnone]
  · intro j hj
    have hopen : fs.openFile p = .ok (mkHandle fs (fs.entries.getD j rootEntry)) := by
      unfold FSm.openFile
      rw [hlk]
      dsimp only
      rw [if_pos hlink, hj]
    refine ⟨hopen, fun hnl => ?_⟩
    have hopen2 := openFile_resolved fs _ j hj hnl
    unfold FSm.readFileBytes
    rw [hopen, hopen2]

set_option maxRecDepth 200000 in
/-- Counterexample to C5 as stated: in the link-chain archive, `top` is a
hard link whose target `mid` is present in the index, yet opening `top`
yields empty content (the link entry's zero-size section) while opening the
target `mid` directly yields the underlying file's bytes — the contents
differ because only one level of links is resolved. -/
theorem c5_counterexample :
    lookupFM (tarfsNew linkChainArchive).fileMap (strL "top") = some 3 ∧
    ((tarfsNew linkChainArchive).entries.getD 3 rootEntry).header.typeflag =
      tarTypeLink ∧
    ((tarfsNew linkChainArchive).entries.getD 3 rootEntry).header.linkname =
      strL "mid" ∧
    lookupFM (tarfsNew linkChainArchive).fileMap (strL "mid") = some 2 ∧
    (tarfsNew linkChainArchive).readFileBytes (strL "top") = .ok [] ∧
    (tarfsNew linkChainArchive).readFileBytes (strL "mid") =
      .ok [100, 97, 116, 97] ∧
    ([] : List UInt8) ≠ [100, 97, 116, 97] := by
  refine ⟨by decide, by decide, by decide, by decide, by decide, by decide, by decide⟩

set_option maxRecDepth 200000 in
/-- Witness for C5 (amended): the one-level link `alias` resolves to the
regular file `base` and reads its content. -/
theorem c5_witness :
    lookupFM (tarfsNew linkOkArchive).fileMap (strL "alias") = some 2 ∧
    ((tarfsNew linkOkArchive).entries.getD 2 rootEntry).header.typeflag =
      tarTypeLink ∧
    ((lookupFM (tarfsNew linkOkArchive).fileMap
        ((tarfsNew linkOkArchive).entries.getD 2 rootEntry).header.linkname = none →
      (tarfsNew linkOkArchive).openFile (strL "alias") =
        .error (.linkTargetMissing (strL "alias")
          ((tarfsNew linkOkArchive).entries.getD 2 rootEntry).header.linkname)) ∧
    (∀ j, lookupFM (tarfsNew linkOkArchive).fileMap
        ((tarfsNew linkOkArchive).entries.getD 2 rootEntry).header.linkname = some j →
      (tarfsNew linkOkArchive).openFile (strL "alias") =
        .ok (mkHandle (tarfsNew linkOkArchive)
          ((tarfsNew linkOkArchive).entries.getD j rootEntry)) ∧
      (((tarfsNew linkOkArchive).entries.getD j rootEntry).header.typeflag ≠
          tarTypeLink →
        (tarfsNew linkOkArchive).readFileBytes (strL "alias") =
          (tarfsNew linkOkArchive).readFileBytes
            ((tarfsNew linkOkArchive).entries.getD 2 rootEntry).header.linkname))) :=
  ⟨by decide, by decide,
    c5_hard_link (tarfsNew linkOkArchive) (strL "alias") 2 (by decide) (by decide)⟩

/-! ## C6: children linkage -/

theorem buildIndex_append (xs ys : List TarMember) :
    ∀ (pos : Nat) (a : List Entry) (f : List (PStr × Nat)),
      buildIndex pos a f (xs ++ ys) =
        buildIndex (pos + blocksLen xs) (buildIndex pos a f xs).1
          (buildIndex pos a f xs).2 ys := by
  induction xs with
  | nil => intro pos a f; simp [buildIndex, blocksLen]
  | cons m xs ih =>
    intro pos a f
    show buildIndex pos a f (m :: (xs ++ ys)) = _
    simp only [buildIndex, blocksLen]
    cases hpar : lookupFM ((pathCleanL m.name, a.length) :: f)
        (pathDirL (pathCleanL m.name)) with
    | none =>
      dsimp only
      rw [ih]
      have harith : pos + 512 + padTo512 m.content.length + blocksLen xs =
          pos + (512 + padTo512 m.content.length + blocksLen xs) := by omega
      rw [harith]
    | some pz =>
      dsimp only
      rw [ih]
      have harith : pos + 512 + padTo512 m.content.length + blocksLen xs =
          pos + (512 + padTo512 m.content.length + blocksLen xs) := by omega
      rw [harith]

theorem lookupFM_append_found (l₁ l₂ : List (PStr × Nat)) (key : PStr) (v : Nat)
    (h : lookupFM l₁ key = some v) :
    lookupFM (l₁ ++ l₂) key = some v := by
  induction l₁ with
  | nil => simp [lookupFM] at h
  | cons kv rest ih =>
    rcases kv with ⟨k, w⟩
    by_cases hk : k = key
    · simp only [lookupFM, if_pos hk] at h
      simp only [List.cons_append, lookupFM, if_pos hk]
      exact h
    · simp only [lookupFM, if_neg hk] at h
      simp only [List.cons_append, lookupFM, if_neg hk]
      exact ih h

theorem bindingsFrom_snoc (xs : List TarMember) (x : TarMember) (k : Nat) :
    bindingsFrom k (xs ++ [x]) =
      (pathCleanL x.name, k + xs.length) :: bindingsFrom k xs := by
  rw [bindingsFrom_split xs [x] k]
  rfl

theorem cleanAt_append_lt (xs ys : List TarMember) (i : Nat) (h : i < xs.length) :
    cleanAt (xs ++ ys) i = cleanAt xs i := by
  unfold cleanAt
  rw [getD_append_left _ _ _ _ h]

theorem cleanAt_snoc_last (xs : List TarMember) (x : TarMember) :
    cleanAt (xs ++ [x]) xs.length = pathCleanL x.name := by
  unfold cleanAt
  rw [getD_append_singleton]

theorem lookupFM_bindings_unique (xs : List TarMember) :
    ∀ (k : Nat) (key : PStr) (j : Nat), j < xs.length → cleanAt xs j = key →
      (∀ i, i < xs.length → cleanAt xs i = key → i = j) →
      lookupFM (bindingsFrom k xs) key = some (k + j) := by
  induction xs using List.reverseRecOn with
  | nil => intro k key j hj _ _; simp at hj
  | append_singleton xs x ih =>
    intro k key j hj hkey huniq
    rw [bindingsFrom_snoc]
    by_cases hlast : j = xs.length
    · subst hlast
      rw [cleanAt_snoc_last] at hkey
      simp [lookupFM, hkey]
    · have hjlt : j < xs.length := by
        simp only [List.length_append, List.length_singleton] at hj
        omega
      have hne : pathCleanL x.name ≠ key := by
        intro hc
        have := huniq xs.length (by simp) (by rw [cleanAt_snoc_last]; exact hc)
        omega
      simp only [lookupFM, if_neg hne]
      apply ih k key j hjlt
      · rw [← cleanAt_append_lt xs [x] j hjlt]
        exact hkey
      · intro i hi hik
        exact huniq i (by simp; omega) (by rw [cleanAt_append_lt xs [x] i hi]; exact hik)

theorem childIdxs_snoc (xs : List TarMember) (x : TarMember) (d : PStr) :
    childIdxs (xs ++ [x]) d =
      childIdxs xs d ++
        (if isChildOf d x then [xs.length + 1] else []) := by
  unfold childIdxs
  rw [List.length_append, List.length_singleton, List.range_succ, List.filter_append,
    List.map_append]
  congr 1
  · congr 1
    apply List.filter_congr
    intro i hi
    have hilt : i < xs.length := List.mem_range.mp hi
    rw [getD_append_left _ _ _ _ hilt]
  · have hlast : (xs ++ [x]).getD xs.length default = x := getD_append_singleton _ _ _
    simp only [List.filter_cons, List.filter_nil, hlast]
    by_cases hx : isChildOf d x
    · simp [hx]
    · simp [hx]

theorem children_step (xs : List TarMember) (x : TarMember) (pos tgt j : Nat)
    (hj : j ≤ xs.length + 1)
    (hIH : ∀ j, j ≤ xs.length →
      ((buildIndex 0 [rootEntry] [(['.'], 0)] xs).1.getD j rootEntry).children =
        childIdxs xs (pathAt xs j))
    (hAlen : (buildIndex 0 [rootEntry] [(['.'], 0)] xs).1.length = xs.length + 1)
    (htgt : tgt ≤ xs.length)
    (hdxtgt : pathAt xs tgt = pathDirL (pathCleanL x.name))
    (huniqp : ∀ j', j' ≤ xs.length → pathAt xs j' = pathDirL (pathCleanL x.name) →
      j' = tgt)
    (hnochild : childIdxs (xs ++ [x]) (pathCleanL x.name) = []) :
    ((appendChild ((buildIndex 0 [rootEntry] [(['.'], 0)] xs).1 ++ [newEntry x pos])
        tgt (buildIndex 0 [rootEntry] [(['.'], 0)] xs).1.length).getD j
          rootEntry).children =
      childIdxs (xs ++ [x]) (pathAt (xs ++ [x]) j) := by
  by_cases hnew : j = xs.length + 1
  · subst hnew
    unfold appendChild
    rw [getD_set, if_neg (by omega)]
    have hgd : ((buildIndex 0 [rootEntry] [(['.'], 0)] xs).1 ++
        [newEntry x pos]).getD (xs.length + 1) rootEntry = newEntry x pos := by
      rw [← hAlen]
      exact getD_append_singleton _ _ _
    rw [hgd]
    have hpa : pathAt (xs ++ [x]) (xs.length + 1) = pathCleanL x.name :=
      cleanAt_snoc_last xs x
    rw [hpa, hnochild]
    rfl
  · have hjn : j ≤ xs.length := by omega
    have hpeq : pathAt (xs ++ [x]) j = pathAt xs j := by
      cases j with
      | zero => rfl
      | succ j' => exact cleanAt_append_lt xs [x] j' (by omega)
    rw [hpeq, childIdxs_snoc]
    have hsetlen : tgt < ((buildIndex 0 [rootEntry] [(['.'], 0)] xs).1 ++
        [newEntry x pos]).length := by
      rw [List.length_append, List.length_singleton, hAlen]
      omega
    by_cases hjt : j = tgt
    · subst hjt
      have hcond : isChildOf (pathAt xs j) x = true := by
        simp only [isChildOf, decide_eq_true_eq]
        exact hdxtgt.symm
      rw [if_pos hcond]
      unfold appendChild
      rw [getD_set, if_pos ⟨rfl, hsetlen⟩]
      show (((buildIndex 0 [rootEntry] [(['.'], 0)] xs).1 ++
          [newEntry x pos]).getD j rootEntry).children ++
        [(buildIndex 0 [rootEntry] [(['.'], 0)] xs).1.length] = _
      rw [getD_append_left _ _ _ _ (by omega), hIH j hjn, hAlen]
    · have hcond : isChildOf (pathAt xs j) x = false := by
        simp only [isChildOf, decide_eq_false_iff_not]
        intro hc
        exact hjt (huniqp j hjn hc.symm)
      rw [hcond]
      simp only [Bool.false_eq_true, if_false, List.append_nil]
      unfold appendChild
      rw [getD_set, if_neg (fun hcc => hjt hcc.1.symm)]
      rw [getD_append_left _ _ _ _ (by omega)]
      exact hIH j hjn

theorem buildIndex_children (ms : List TarMember) :
    (∀ jj, jj < ms.length → ∀ ii, ii < jj → cleanAt ms ii ≠ cleanAt ms jj) →
    (∀ ii, ii < ms.length → cleanAt ms ii ≠ ['.']) →
    (∀ ii, ii < ms.length → pathDirL (cleanAt ms ii) = ['.'] ∨
      ∃ jj, jj < ii ∧ cleanAt ms jj = pathDirL (cleanAt ms ii)) →
    ∀ j, j ≤ ms.length →
      ((buildIndex 0 [rootEntry] [(['.'], 0)] ms).1.getD j rootEntry).children =
        childIdxs ms (pathAt ms j) := by
  induction ms using List.reverseRecOn with
  | nil =>
    intro _ _ _ j hj
    have hj0 : j = 0 := by simpa using hj
    subst hj0
    simp [buildIndex, childIdxs, pathAt, rootEntry]
  | append_singleton xs x ih =>
    intro h1 h2 h3 j hj
    have h1' : ∀ jj, jj < xs.length → ∀ ii, ii < jj → cleanAt xs ii ≠ cleanAt xs jj := by
      intro jj hjj ii hii
      have h := h1 jj (by simp; omega) ii hii
      rwa [cleanAt_append_lt xs [x] ii (by omega), cleanAt_append_lt xs [x] jj hjj] at h
    have h2' : ∀ ii, ii < xs.length → cleanAt xs ii ≠ ['.'] := by
      intro ii hii
      have h := h2 ii (by simp; omega)
      rwa [cleanAt_append_lt xs [x] ii hii] at h
    have h3' : ∀ ii, ii < xs.length → pathDirL (cleanAt xs ii) = ['.'] ∨
        ∃ jj, jj < ii ∧ cleanAt xs jj = pathDirL (cleanAt xs ii) := by
      intro ii hii
      rcases h3 ii (by simp; omega) with hd | ⟨jj, hjj, hc⟩
      · left
        rwa [cleanAt_append_lt xs [x] ii hii] at hd
      · right
        refine ⟨jj, hjj, ?_⟩
        rwa [cleanAt_append_lt xs [x] jj (by omega), cleanAt_append_lt xs [x] ii hii] at hc
    have hIH := ih h1' h2' h3'
    have hcxn : pathCleanL x.name ≠ ['.'] := by
      have h := h2 xs.length (by simp)
      rwa [cleanAt_snoc_last] at h
    have hlastclean : cleanAt (xs ++ [x]) xs.length = pathCleanL x.name :=
      cleanAt_snoc_last xs x
    have hcase := h3 xs.length (by simp)
    rw [hlastclean] at hcase
    have hcxdx : pathCleanL x.name ≠ pathDirL (pathCleanL x.name) := by
      intro hc
      rcases hcase with hd | ⟨jj, hjj, hjc⟩
      · rw [← hc] at hd
        exact hcxn hd
      · rw [cleanAt_append_lt xs [x] jj hjj] at hjc
        rw [← hc] at hjc
        have := h1 xs.length (by simp) jj hjj
        rw [cleanAt_append_lt xs [x] jj hjj, hlastclean] at this
        exact this hjc
    have hnochild : childIdxs (xs ++ [x]) (pathCleanL x.name) = [] := by
      unfold childIdxs
      have hfil : (List.range (xs ++ [x]).length).filter
          (fun i => isChildOf (pathCleanL x.name) ((xs ++ [x]).getD i default)) = [] := by
        apply List.filter_eq_nil_iff.mpr
        intro i hi
        have hilt : i < xs.length + 1 := by
          have := List.mem_range.mp hi
          simpa using this
        simp only [isChildOf, decide_eq_true_eq]
        by_cases hieq : i = xs.length
        · subst hieq
          rw [show (xs ++ [x]).getD xs.length default = x from getD_append_singleton _ _ _]
          exact fun hc => hcxdx hc.symm
        · have hiltn : i < xs.length := by omega
          rw [show (xs ++ [x]).getD i default = xs.getD i default from
            getD_append_left _ _ _ _ hiltn]
          intro hc
          have hc2 : pathDirL (cleanAt xs i) = pathCleanL x.name := hc
          rcases h3' i hiltn with hd | ⟨jj, hjj, hjc⟩
          · rw [hc2] at hd
            exact hcxn hd
          · rw [hc2] at hjc
            have hne := h1 xs.length (by simp) jj (by omega)
            rw [cleanAt_append_lt xs [x] jj (by omega), hlastclean] at hne
            exact hne hjc
      rw [hfil, List.map_nil]
    rw [buildIndex_append xs [x] 0 [rootEntry] [(['.'], 0)]]
    have hAlen : (buildIndex 0 [rootEntry] [(['.'], 0)] xs).1.length = xs.length + 1 := by
      rw [buildIndex_length]
      simp only [List.length_singleton]
      omega
    have hFval : (buildIndex 0 [rootEntry] [(['.'], 0)] xs).2 =
        bindingsFrom 1 xs ++ [(['.'], 0)] := by
      rw [buildIndex_fmap]
      simp
    simp only [buildIndex]
    rcases hcase with hdot | ⟨jj, hjj, hjc⟩
    · have hlk : lookupFM ((pathCleanL x.name,
          (buildIndex 0 [rootEntry] [(['.'], 0)] xs).1.length) ::
            (buildIndex 0 [rootEntry] [(['.'], 0)] xs).2)
          (pathDirL (pathCleanL x.name)) = some 0 := by
        simp only [lookupFM, if_neg hcxdx]
        rw [hFval, hdot, lookupFM_append_skip]
        · simp [lookupFM]
        · intro kv hkv
          rcases bindingsFrom_mem xs _ kv hkv with ⟨i, hi, hkey⟩
          rw [hkey]
          exact h2' i hi
      rw [hlk]
      dsimp only
      apply children_step xs x _ 0 j (by simpa using hj) hIH hAlen (by omega)
      · rw [hdot]
        rfl
      · intro j' hj' hp
        cases j' with
        | zero => rfl
        | succ ii =>
          exfalso
          have : cleanAt xs ii = ['.'] := by
            rw [← hdot]
            exact hp
          exact h2' ii (by omega) this
      · exact hnochild
    · have hjcx : cleanAt xs jj = pathDirL (pathCleanL x.name) := by
        rwa [cleanAt_append_lt xs [x] jj hjj] at hjc
      have huniq : ∀ i, i < xs.length → cleanAt xs i = pathDirL (pathCleanL x.name) →
          i = jj := by
        intro i hi hik
        by_contra hne
        rcases Nat.lt_or_ge i jj with hlt | hge
        · exact h1' jj hjj i hlt (hik.trans hjcx.symm)
        · have hgt : jj < i := by omega
          exact h1' i hi jj hgt (hjcx.trans hik.symm)
      have hlk : lookupFM ((pathCleanL x.name,
          (buildIndex 0 [rootEntry] [(['.'], 0)] xs).1.length) ::
            (buildIndex 0 [rootEntry] [(['.'], 0)] xs).2)
          (pathDirL (pathCleanL x.name)) = some (jj + 1) := by
        simp only [lookupFM, if_neg hcxdx]
        rw [hFval]
        have hfound := lookupFM_bindings_unique xs 1 (pathDirL (pathCleanL x.name))
          jj hjj hjcx huniq
        rw [lookupFM_append_found _ _ _ _ hfound]
        simp [Nat.add_comm]
      rw [hlk]
      dsimp only
      apply children_step xs x _ (jj + 1) j (by simpa using hj) hIH hAlen (by omega)
      · exact hjcx
      · intro j' hj' hp
        cases j' with
        | zero =>
          exfalso
          have : cleanAt xs jj = ['.'] := by
            rw [hjcx]
            exact hp.symm
          exact h2' jj (by omega) this
        | succ ii =>
          have := huniq ii (by omega) hp
          omega
      · exact hnochild

theorem tarfsNew_lookup_root (ms : List TarMember)
    (h2 : ∀ ii, ii < ms.length → cleanAt ms ii ≠ ['.']) :
    lookupFM (tarfsNew ms).fileMap ['.'] = some 0 := by
  rw [tarfsNew_fileMap, buildIndex_fmap]
  simp only [List.length_singleton]
  rw [lookupFM_append_skip]
  · simp [lookupFM]
  · intro kv hkv
    rcases bindingsFrom_mem ms _ kv hkv with ⟨i, hi, hkey⟩
    rw [hkey]
    exact h2 i hi

theorem tarfsNew_lookup_member (ms : List TarMember) (j : Nat) (hj : j < ms.length)
    (h1 : ∀ jj, jj < ms.length → ∀ ii, ii < jj → cleanAt ms ii ≠ cleanAt ms jj) :
    lookupFM (tarfsNew ms).fileMap (cleanAt ms j) = some (j + 1) := by
  rw [tarfsNew_fileMap, buildIndex_fmap]
  simp only [List.length_singleton]
  have huniq : ∀ i, i < ms.length → cleanAt ms i = cleanAt ms j → i = j := by
    intro i hi hik
    by_contra hne
    rcases Nat.lt_or_ge i j with hlt | hge
    · exact h1 j hj i hlt hik
    · have hgt : j < i := by omega
      exact h1 i hi j hgt hik.symm
  have hfound := lookupFM_bindings_unique ms 1 (cleanAt ms j) j hj rfl huniq
  rw [lookupFM_append_found _ _ _ _ hfound]
  simp [Nat.add_comm]

theorem tarfsNew_core (ms : List TarMember) (j : Nat) (hj : j < ms.length) :
    entryCore ((tarfsNew ms).entries.getD (j + 1) rootEntry) =
      (headerOf (ms.getD j default), blocksLen (ms.take j) + 512,
        (ms.getD j default).content.length) := by
  rw [tarfsNew_entries]
  have h := buildIndex_core_new ms 0 [rootEntry] [(['.'], 0)] j hj
  simp only [List.length_singleton, Nat.zero_add] at h
  rw [show j + 1 = 1 + j by omega, h]

theorem tarfsNew_core_root (ms : List TarMember) :
    entryCore ((tarfsNew ms).entries.getD 0 rootEntry) = entryCore rootEntry := by
  rw [tarfsNew_entries]
  exact buildIndex_core_preserved ms 0 [rootEntry] [(['.'], 0)] 0 (by simp)

theorem range_filter_map (ms : List TarMember) (p : TarMember → Bool) {β : Type}
    (f : TarMember → β) :
    ((List.range ms.length).filter (fun i => p (ms.getD i default))).map
      (fun i => f (ms.getD i default)) = (ms.filter p).map f := by
  induction ms using List.reverseRecOn with
  | nil => simp
  | append_singleton xs x ih =>
    rw [List.length_append, List.length_singleton, List.range_succ,
      List.filter_append, List.map_append]
    have hcong1 : (List.range xs.length).filter
        (fun i => p ((xs ++ [x]).getD i default)) =
        (List.range xs.length).filter (fun i => p (xs.getD i default)) := by
      apply List.filter_congr
      intro i hi
      rw [getD_append_left _ _ _ _ (List.mem_range.mp hi)]
    have hcong2 : ((List.range xs.length).filter
        (fun i => p (xs.getD i default))).map
          (fun i => f ((xs ++ [x]).getD i default)) =
        ((List.range xs.length).filter (fun i => p (xs.getD i default))).map
          (fun i => f (xs.getD i default)) := by
      apply List.map_congr_left
      intro i hi
      have hilt : i < xs.length := List.mem_range.mp (List.mem_of_mem_filter hi)
      rw [getD_append_left _ _ _ _ hilt]
    rw [hcong1, hcong2, ih, List.filter_append, List.map_append]
    congr 1
    have hlast : (xs ++ [x]).getD xs.length default = x := getD_append_singleton _ _ _
    simp only [List.filter_cons, List.filter_nil, hlast]
    by_cases hx : p x
    · simp [hx]
    · simp [hx]

theorem children_headers (ms : List TarMember) (d : PStr) :
    (childIdxs ms d).map (fun c => ((tarfsNew ms).entries.getD c rootEntry).header) =
      (directChildren ms d).map headerOf := by
  unfold childIdxs directChildren
  rw [List.map_map]
  have hcong : ∀ i ∈ (List.range ms.length).filter
      (fun i => isChildOf d (ms.getD i default)),
      (((fun c => ((tarfsNew ms).entries.getD c rootEntry).header) ∘ (· + 1)) i) =
        headerOf (ms.getD i default) := by
    intro i hi
    have hilt : i < ms.length := List.mem_range.mp (List.mem_of_mem_filter hi)
    exact congrArg Prod.fst (tarfsNew_core ms i hilt)
  rw [List.map_congr_left hcong]
  exact range_filter_map ms (isChildOf d) headerOf

theorem getFiles_dir_eq (dID : String) (ms : List TarMember) (dpath d2 : PStr)
    (idx : Nat)
    (hlk : lookupFM (tarfsNew ms).fileMap dpath = some idx)
    (hdir : ((tarfsNew ms).entries.getD idx rootEntry).header.typeflag = tarTypeDir)
    (hch : ((tarfsNew ms).entries.getD idx rootEntry).children = childIdxs ms d2) :
    LayerM.getFiles ⟨dID, some (tarfsNew ms)⟩ dpath =
      .ok ((directChildren ms d2).map (fun mm => toFileRec dpath (headerOf mm))) := by
  have hnl : ((tarfsNew ms).entries.getD idx rootEntry).header.typeflag ≠
      tarTypeLink := by
    rw [hdir]
    simp [tarTypeDir, tarTypeLink]
  have hopen := openFile_resolved _ _ _ hlk hnl
  have hrd := readDir_neg_all
    (mkHandle (tarfsNew ms) ((tarfsNew ms).entries.getD idx rootEntry)) hdir rfl
  unfold LayerM.getFiles
  dsimp only
  rw [hopen]
  dsimp only
  rw [hrd]
  dsimp only [mkHandle]
  rw [List.map_map, hch]
  have hstep : ((childIdxs ms d2).map
      (fun c => (tarfsNew ms).entries.getD c rootEntry)).map (fun x => x.header) =
      (directChildren ms d2).map headerOf := by
    rw [List.map_map]
    exact children_headers ms d2
  rw [← List.map_map, hstep, List.map_map]
  rfl

/-! ## Path canonical forms -/

theorem splitSlash_no_slash (s : PStr) : ∀ g ∈ splitSlash s, '/' ∉ g := by
  induction s with
  | nil =>
    intro g hg
    simp only [splitSlash, List.mem_singleton] at hg
    subst hg
    simp
  | cons c rest ih =>
    intro g hg
    by_cases hc : c = '/'
    · rw [splitSlash, if_pos hc] at hg
      rcases List.mem_cons.mp hg with h | h
      · subst h; simp
      · exact ih g h
    · rw [splitSlash, if_neg hc] at hg
      rcases hsp : splitSlash rest with _ | ⟨g0, gs⟩
      · rw [hsp] at hg
        simp only [List.mem_singleton] at hg
        subst hg
        simp only [List.mem_singleton]
        intro hcc
        exact hc hcc.symm
      · rw [hsp] at hg
        rcases List.mem_cons.mp hg with h | h
        · subst h
          intro hmem
          rcases List.mem_cons.mp hmem with h' | h'
          · exact hc h'.symm
          · exact ih g0 (by rw [hsp]; exact List.mem_cons_self _ _) h'
        · exact ih g (by rw [hsp]; exact List.mem_cons_of_mem _ h)

theorem splitSlash_single (g : PStr) (h : '/' ∉ g) : splitSlash g = [g] := by
  induction g with
  | nil => rfl
  | cons c rest ih =>
    have hc : c ≠ '/' := fun hcc => h (by rw [hcc]; exact List.mem_cons_self _ _)
    rw [splitSlash, if_neg hc, ih (fun hm => h (List.mem_cons_of_mem _ hm))]

theorem splitSlash_append_slash (c : PStr) (rest : PStr) (h : '/' ∉ c) :
    splitSlash (c ++ '/' :: rest) = c :: splitSlash rest := by
  induction c with
  | nil => simp [splitSlash]
  | cons a as ih =>
    have ha : a ≠ '/' := fun hcc => h (by rw [hcc]; exact List.mem_cons_self _ _)
    rw [List.cons_append, splitSlash, if_neg ha,
      ih (fun hm => h (List.mem_cons_of_mem _ hm))]

theorem splitSlash_joinSlash (cs : List PStr) (hne : cs ≠ [])
    (h : ∀ c ∈ cs, '/' ∉ c) : splitSlash (joinSlash cs) = cs := by
  induction cs with
  | nil => exact absurd rfl hne
  | cons c rest ih =>
    cases rest with
    | nil => exact splitSlash_single c (h c (List.mem_cons_self _ _))
    | cons d ds =>
      have hih := ih (List.cons_ne_nil d ds)
        (fun g hg => h g (List.mem_cons_of_mem _ hg))
      rw [joinSlash, splitSlash_append_slash c _ (h c (List.mem_cons_self _ _)), hih]
      intro hcontra
      exact List.noConfusion hcontra

theorem splitSlash_ne_nil (s : PStr) : splitSlash s ≠ [] := by
  induction s with
  | nil => simp [splitSlash]
  | cons c rest ih =>
    by_cases hc : c = '/'
    · rw [splitSlash, if_pos hc]
      simp
    · rw [splitSlash, if_neg hc]
      rcases hsp : splitSlash rest with _ | ⟨g0, gs⟩
      · exact absurd hsp ih
      · simp

theorem splitSlash_snoc_slash (y : PStr) :
    splitSlash (y ++ ['/']) = splitSlash y ++ [[]] := by
  induction y with
  | nil => rfl
  | cons c rest ih =>
    by_cases hc : c = '/'
    · rw [List.cons_append, splitSlash, if_pos hc, ih, splitSlash, if_pos hc]
      rfl
    · rw [List.cons_append, splitSlash, if_neg hc, ih]
      rcases hsp : splitSlash rest with _ | ⟨g0, gs⟩
      · exact absurd hsp (splitSlash_ne_nil rest)
      · rw [splitSlash, if_neg hc, hsp]
        rfl

theorem cleanStack_cons (rooted : Bool) (acc : List PStr) (g : PStr)
    (gs : List PStr) :
    cleanStack rooted acc (g :: gs) =
      if g = [] ∨ g = ['.'] then cleanStack rooted acc gs
      else if g = dd then
        (match acc with
         | a :: rest =>
           if a = dd then cleanStack rooted (dd :: a :: rest) gs
           else cleanStack rooted rest gs
         | [] =>
           if rooted then cleanStack rooted [] gs else cleanStack rooted [dd] gs)
      else cleanStack rooted (g :: acc) gs := rfl

theorem cleanStack_append_empty (gs : List PStr) :
    ∀ (rooted : Bool) (acc : List PStr),
      cleanStack rooted acc (gs ++ [[]]) = cleanStack rooted acc gs := by
  induction gs with
  | nil =>
    intro rooted acc
    rfl
  | cons g gs ih =>
    intro rooted acc
    rw [List.cons_append, cleanStack_cons, cleanStack_cons]
    by_cases h1 : g = [] ∨ g = ['.']
    · rw [if_pos h1, if_pos h1, ih]
    · rw [if_neg h1, if_neg h1]
      by_cases h2 : g = dd
      · rw [if_pos h2, if_pos h2]
        cases acc with
        | nil =>
          cases rooted
          · dsimp only
            rw [if_neg (by simp), if_neg (by simp), ih]
          · dsimp only
            rw [if_pos rfl, if_pos rfl, ih]
        | cons a rest =>
          dsimp only
          by_cases h3 : a = dd
          · rw [if_pos h3, if_pos h3, ih]
          · rw [if_neg h3, if_neg h3, ih]
      · rw [if_neg h2, if_neg h2, ih]

theorem goodComp_dd : goodComp dd := by
  refine ⟨by simp [dd], by simp [dd], by simp [dd]⟩

theorem cleanStack_inv (cs : List PStr) :
    ∀ (rooted : Bool) (acc : List PStr), (∀ g ∈ cs, '/' ∉ g) →
      (∀ c ∈ acc, goodComp c) → goodStack acc → (rooted = true → dd ∉ acc) →
      (∀ c ∈ cleanStack rooted acc cs, goodComp c) ∧
        goodStack (cleanStack rooted acc cs) ∧
        (rooted = true → dd ∉ cleanStack rooted acc cs) := by
  induction cs with
  | nil =>
    intro rooted acc _ hgood hstack hdd
    exact ⟨hgood, hstack, hdd⟩
  | cons g gs ih =>
    intro rooted acc hsl hgood hstack hdd
    have hsl' : ∀ g ∈ gs, '/' ∉ g := fun g hg => hsl g (List.mem_cons_of_mem _ hg)
    rw [cleanStack_cons]
    by_cases h1 : g = [] ∨ g = ['.']
    · rw [if_pos h1]
      exact ih rooted acc hsl' hgood hstack hdd
    · rw [if_neg h1]
      by_cases h2 : g = dd
      · rw [if_pos h2]
        cases acc with
        | nil =>
          cases rooted with
          | false =>
            dsimp only
            apply ih false [dd] hsl'
            · intro c hc
              rw [List.mem_singleton] at hc
              rw [hc]
              exact goodComp_dd
            · show if dd = dd then ∀ x ∈ ([] : List PStr), x = dd else goodStack []
              rw [if_pos rfl]
              simp
            · intro hcontra
              exact absurd hcontra (by simp)
          | true =>
            dsimp only
            apply ih true [] hsl' (by simp) trivial (by simp)
        | cons a rest =>
          dsimp only
          by_cases h3 : a = dd
          · rw [if_pos h3]
            have hall : ∀ x ∈ rest, x = dd := by
              have := hstack
              rw [show goodStack (a :: rest) =
                if a = dd then ∀ x ∈ rest, x = dd else goodStack rest from rfl,
                if_pos h3] at this
              exact this
            apply ih rooted (dd :: a :: rest) hsl'
            · intro c hc
              rcases List.mem_cons.mp hc with h | h
              · rw [h]; exact goodComp_dd
              · exact hgood c h
            · show if dd = dd then ∀ x ∈ a :: rest, x = dd else _
              rw [if_pos rfl]
              intro x hx
              rcases List.mem_cons.mp hx with h | h
              · rw [h, h3]
              · exact hall x h
            · intro hr
              exfalso
              exact hdd hr (by rw [← h3]; exact List.mem_cons_self _ _)
          · rw [if_neg h3]
            apply ih rooted rest hsl'
            · exact fun c hc => hgood c (List.mem_cons_of_mem _ hc)
            · have := hstack
              rw [show goodStack (a :: rest) =
                if a = dd then ∀ x ∈ rest, x = dd else goodStack rest from rfl,
                if_neg h3] at this
              exact this
            · exact fun hr hm => hdd hr (List.mem_cons_of_mem _ hm)
      · rw [if_neg h2]
        apply ih rooted (g :: acc) hsl'
        · intro c hc
          rcases List.mem_cons.mp hc with h | h
          · rw [h]
            push_neg at h1
            exact ⟨h1.1, h1.2, hsl g (List.mem_cons_self _ _)⟩
          · exact hgood c h
        · show if g = dd then ∀ x ∈ acc, x = dd else goodStack acc
          rw [if_neg h2]
          exact hstack
        · intro hr hm
          rcases List.mem_cons.mp hm with h | h
          · exact h2 h.symm
          · exact hdd hr h

theorem leadDD_all (l : List PStr) (h : ∀ x ∈ l, x = dd) : leadDD l := by
  induction l with
  | nil => trivial
  | cons c cs ih =>
    have hc : c = dd := h c (List.mem_cons_self _ _)
    show if c = dd then leadDD cs else dd ∉ c :: cs
    rw [if_pos hc]
    exact ih (fun x hx => h x (List.mem_cons_of_mem _ hx))

theorem leadDD_snoc (l : List PStr) (c : PStr) (h : leadDD l) (hc : c ≠ dd) :
    leadDD (l ++ [c]) := by
  induction l with
  | nil =>
    show if c = dd then leadDD [] else dd ∉ [c]
    rw [if_neg hc]
    simp [Ne.symm hc]
  | cons x xs ih =>
    show if x = dd then leadDD (xs ++ [c]) else dd ∉ x :: (xs ++ [c])
    have hh : if x = dd then leadDD xs else dd ∉ x :: xs := h
    by_cases hx : x = dd
    · rw [if_pos hx]
      rw [if_pos hx] at hh
      exact ih hh
    · rw [if_neg hx]
      rw [if_neg hx] at hh
      intro hm
      rcases List.mem_cons.mp hm with h' | h'
      · exact hh (by rw [h']; exact List.mem_cons_self _ _)
      · rcases List.mem_append.mp h' with h'' | h''
        · exact hh (List.mem_cons_of_mem _ h'')
        · rw [List.mem_singleton] at h''
          exact hc h''.symm

theorem goodStack_reverse (a : List PStr) (h : goodStack a) : leadDD a.reverse := by
  induction a with
  | nil => trivial
  | cons c rest ih =>
    rw [List.reverse_cons]
    have hh : if c = dd then ∀ x ∈ rest, x = dd else goodStack rest := h
    by_cases hc : c = dd
    · rw [if_pos hc] at hh
      apply leadDD_all
      intro x hx
      rcases List.mem_append.mp hx with h' | h'
      · exact hh x (List.mem_reverse.mp h')
      · rw [List.mem_singleton] at h'
        rw [h', hc]
    · rw [if_neg hc] at hh
      exact leadDD_snoc _ _ (ih hh) hc

theorem pathCleanL_invComps (s : PStr) :
    invComps (isRooted s) ((cleanStack (isRooted s) [] (splitSlash s)).reverse) := by
  have h := cleanStack_inv (splitSlash s) (isRooted s) []
    (splitSlash_no_slash s) (by simp) trivial (by simp)
  refine ⟨?_, goodStack_reverse _ h.2.1, ?_⟩
  · intro c hc
    exact h.1 c (List.mem_reverse.mp hc)
  · intro hr hm
    exact h.2.2 hr (List.mem_reverse.mp hm)

theorem leadDD_mid (xs ys : List PStr) (h : leadDD (xs ++ dd :: ys)) :
    ∀ x ∈ xs, x = dd := by
  induction xs with
  | nil => simp
  | cons c cs ih =>
    have hh : if c = dd then leadDD (cs ++ dd :: ys) else dd ∉ c :: (cs ++ dd :: ys) := h
    by_cases hc : c = dd
    · rw [if_pos hc] at hh
      intro x hx
      rcases List.mem_cons.mp hx with h' | h'
      · rw [h', hc]
      · exact ih hh x h'
    · rw [if_neg hc] at hh
      exfalso
      exact hh (List.mem_cons_of_mem _ (List.mem_append_right _ (List.mem_cons_self _ _)))

theorem cleanStack_id (cs : List PStr) :
    ∀ (rooted : Bool) (acc : List PStr), (∀ c ∈ cs, goodComp c) →
      leadDD (acc.reverse ++ cs) → (rooted = true → dd ∉ acc ∧ dd ∉ cs) →
      cleanStack rooted acc cs = cs.reverse ++ acc := by
  induction cs with
  | nil =>
    intro rooted acc _ _ _
    rfl
  | cons c cs ih =>
    intro rooted acc hgood hlead hdd
    have hgc : goodComp c := hgood c (List.mem_cons_self _ _)
    have h1 : ¬(c = [] ∨ c = ['.']) := by
      push_neg
      exact ⟨hgc.1, hgc.2.1⟩
    rw [cleanStack_cons, if_neg h1]
    by_cases h2 : c = dd
    · rw [if_pos h2]
      subst h2
      have hallacc : ∀ x ∈ acc, x = dd := by
        intro x hx
        exact leadDD_mid acc.reverse cs hlead x (List.mem_reverse.mpr hx)
      cases acc with
      | nil =>
        cases hro : rooted with
        | true =>
          exfalso
          exact (hdd hro).2 (List.mem_cons_self _ _)
        | false =>
          dsimp only
          rw [ih false [dd] (fun x hx => hgood x (List.mem_cons_of_mem _ hx))
            (by simpa using hlead) (by simp)]
          simp
      | cons a rest =>
        dsimp only
        rw [if_pos (hallacc a (List.mem_cons_self _ _))]
        have hro : rooted = false := by
          cases hro : rooted with
          | true =>
            exfalso
            exact (hdd hro).1 (by
              rw [← hallacc a (List.mem_cons_self _ _)]
              exact List.mem_cons_self _ _)
          | false => rfl
        rw [ih rooted (dd :: a :: rest) (fun x hx => hgood x (List.mem_cons_of_mem _ hx))
          (by
            have : (dd :: a :: rest).reverse ++ cs = (a :: rest).reverse ++ (dd :: cs) := by
              simp
            rw [this]
            exact hlead)
          (by rw [hro]; simp)]
        simp
    · rw [if_neg h2]
      rw [ih rooted (c :: acc) (fun x hx => hgood x (List.mem_cons_of_mem _ hx))
        (by
          have : (c :: acc).reverse ++ cs = acc.reverse ++ (c :: cs) := by simp
          rw [this]
          exact hlead)
        (by
          intro hr
          refine ⟨?_, fun hm => (hdd hr).2 (List.mem_cons_of_mem _ hm)⟩
          intro hm
          rcases List.mem_cons.mp hm with h' | h'
          · exact h2 h'.symm
          · exact (hdd hr).1 h')]
      simp

theorem isRooted_append_left (c y : PStr) (h : c ≠ []) :
    isRooted (c ++ y) = isRooted c := by
  cases c with
  | nil => exact absurd rfl h
  | cons a as => rfl

theorem joinSlash_cons_decomp (c : PStr) (rest : List PStr) :
    joinSlash (c :: rest) = c ∨ ∃ t, joinSlash (c :: rest) = c ++ '/' :: t := by
  cases rest with
  | nil => left; rfl
  | cons d ds => right; exact ⟨joinSlash (d :: ds), rfl⟩

theorem render_rooted_eq (rooted : Bool) (c : PStr) (rest : List PStr)
    (hc : c ≠ []) (hsl : '/' ∉ c) :
    isRooted (render rooted (c :: rest)) = rooted := by
  cases rooted with
  | true => rfl
  | false =>
    show isRooted (joinSlash (c :: rest)) = false
    rcases joinSlash_cons_decomp c rest with h | ⟨t, h⟩ <;> rw [h]
    · cases c with
      | nil => exact absurd rfl hc
      | cons a as =>
        show decide (a = '/') = false
        simp only [decide_eq_false_iff_not]
        intro ha
        exact hsl (by rw [← ha]; exact List.mem_cons_self _ _)
    · cases c with
      | nil => exact absurd rfl hc
      | cons a as =>
        show decide (a = '/') = false
        simp only [decide_eq_false_iff_not]
        intro ha
        exact hsl (by rw [← ha]; exact List.mem_cons_self _ _)

theorem clean_render_id (rooted : Bool) (cs : List PStr)
    (hinv : invComps rooted cs) :
    pathCleanL (render rooted cs) = render rooted cs := by
  rcases hinv with ⟨hgood, hlead, hdd⟩
  cases cs with
  | nil =>
    cases rooted with
    | true => decide
    | false => decide
  | cons c rest =>
    have hgc : goodComp c := hgood c (List.mem_cons_self _ _)
    have hroot := render_rooted_eq rooted c rest hgc.1 hgc.2.2
    have hsl : ∀ g ∈ c :: rest, '/' ∉ g := fun g hg => (hgood g hg).2.2
    have hid := cleanStack_id (c :: rest) rooted [] hgood (by simpa using hlead)
      (fun hr => ⟨by simp, hdd hr⟩)
    unfold pathCleanL
    rw [hroot]
    cases rooted with
    | true =>
      have hsp : splitSlash (render true (c :: rest)) = [] :: (c :: rest) := by
        show splitSlash ('/' :: joinSlash (c :: rest)) = _
        rw [splitSlash, if_pos rfl, splitSlash_joinSlash _ (List.cons_ne_nil _ _) hsl]
      rw [hsp]
      have hsk : cleanStack true [] ([] :: (c :: rest)) =
          cleanStack true [] (c :: rest) := by
        rw [cleanStack_cons, if_pos (Or.inl rfl)]
      rw [hsk, hid]
      simp
    | false =>
      have hsp : splitSlash (render false (c :: rest)) = c :: rest := by
        show splitSlash (joinSlash (c :: rest)) = _
        rw [splitSlash_joinSlash _ (List.cons_ne_nil _ _) hsl]
      rw [hsp, hid]
      simp

theorem leadDD_append_left (l₁ l₂ : List PStr) (h : leadDD (l₁ ++ l₂)) :
    leadDD l₁ := by
  induction l₁ with
  | nil => trivial
  | cons c cs ih =>
    have hh : if c = dd then leadDD (cs ++ l₂) else dd ∉ c :: (cs ++ l₂) := h
    show if c = dd then leadDD cs else dd ∉ c :: cs
    by_cases hc : c = dd
    · rw [if_pos hc]
      rw [if_pos hc] at hh
      exact ih hh
    · rw [if_neg hc]
      rw [if_neg hc] at hh
      intro hm
      apply hh
      rcases List.mem_cons.mp hm with h' | h'
      · rw [h']; exact List.mem_cons_self _ _
      · exact List.mem_cons_of_mem _ (List.mem_append_left _ h')

theorem invComps_dropLast (rooted : Bool) (cs : List PStr) (b : PStr)
    (h : invComps rooted (cs ++ [b])) : invComps rooted cs := by
  rcases h with ⟨hgood, hlead, hdd⟩
  exact ⟨fun c hc => hgood c (List.mem_append_left _ hc),
    leadDD_append_left _ _ hlead,
    fun hr hm => hdd hr (List.mem_append_left _ hm)⟩

theorem joinSlash_snoc (cs : List PStr) (b : PStr) (h : cs ≠ []) :
    joinSlash (cs ++ [b]) = joinSlash cs ++ '/' :: b := by
  induction cs with
  | nil => exact absurd rfl h
  | cons c rest ih =>
    cases rest with
    | nil => rfl
    | cons d ds =>
      have h2 : joinSlash (c :: d :: ds) = c ++ '/' :: joinSlash (d :: ds) := rfl
      have h3 : joinSlash (c :: ((d :: ds) ++ [b])) =
          c ++ '/' :: joinSlash ((d :: ds) ++ [b]) := rfl
      show joinSlash (c :: ((d :: ds) ++ [b])) = _
      rw [h3, h2, ih (List.cons_ne_nil _ _)]
      simp

theorem dropWhile_append_all {α : Type} (p : α → Bool) (l₁ l₂ : List α)
    (h : ∀ x ∈ l₁, p x = true) :
    (l₁ ++ l₂).dropWhile p = l₂.dropWhile p := by
  induction l₁ with
  | nil => rfl
  | cons a as ih =>
    rw [List.cons_append, List.dropWhile_cons, if_pos (h a (List.mem_cons_self _ _))]
    exact ih (fun x hx => h x (List.mem_cons_of_mem _ hx))

theorem dropWhile_all_true {α : Type} (p : α → Bool) (l : List α)
    (h : ∀ x ∈ l, p x = true) : l.dropWhile p = [] := by
  induction l with
  | nil => rfl
  | cons a as ih =>
    rw [List.dropWhile_cons, if_pos (h a (List.mem_cons_self _ _))]
    exact ih (fun x hx => h x (List.mem_cons_of_mem _ hx))

theorem dropWhile_cons_neg {α : Type} (p : α → Bool) (a : α) (l : List α)
    (h : p a = false) : (a :: l).dropWhile p = a :: l := by
  rw [List.dropWhile_cons, h]
  rfl

theorem takeWhile_all {α : Type} (p : α → Bool) (l : List α)
    (h : ∀ x ∈ l, p x = true) : l.takeWhile p = l := by
  induction l with
  | nil => rfl
  | cons a as ih =>
    rw [List.takeWhile_cons, h a (List.mem_cons_self _ _)]
    rw [ih (fun x hx => h x (List.mem_cons_of_mem _ hx))]
    rfl

theorem takeWhile_append_stop {α : Type} (p : α → Bool) (l₁ : List α) (c : α)
    (l₂ : List α) (h : ∀ x ∈ l₁, p x = true) (hc : p c = false) :
    (l₁ ++ c :: l₂).takeWhile p = l₁ := by
  induction l₁ with
  | nil =>
    rw [List.nil_append, List.takeWhile_cons, hc]
    rfl
  | cons a as ih =>
    rw [List.cons_append, List.takeWhile_cons, h a (List.mem_cons_self _ _)]
    rw [ih (fun x hx => h x (List.mem_cons_of_mem _ hx))]
    rfl

theorem upToLastSlash_no_slash (s : PStr) (h : '/' ∉ s) : upToLastSlash s = [] := by
  unfold upToLastSlash
  rw [dropWhile_all_true]
  · rfl
  · intro x hx
    simp only [decide_eq_true_eq]
    intro hc
    exact h (by rw [← hc]; exact List.mem_reverse.mp hx)

theorem upToLastSlash_append_slash (y b : PStr) (h : '/' ∉ b) :
    upToLastSlash (y ++ '/' :: b) = y ++ ['/'] := by
  unfold upToLastSlash
  have hrev : (y ++ '/' :: b).reverse = b.reverse ++ '/' :: y.reverse := by
    simp
  rw [hrev, dropWhile_append_all]
  · rw [dropWhile_cons_neg]
    · simp
    · simp
  · intro x hx
    simp only [decide_eq_true_eq]
    intro hc
    exact h (by rw [← hc]; exact List.mem_reverse.mp hx)

theorem pathCleanL_snoc_slash (s : PStr) (h : s ≠ []) :
    pathCleanL (s ++ ['/']) = pathCleanL s := by
  unfold pathCleanL
  rw [show isRooted (s ++ ['/']) = isRooted s from isRooted_append_left s _ h]
  rw [splitSlash_snoc_slash, cleanStack_append_empty]

theorem render_ne_nil (rooted : Bool) (c : PStr) (rest : List PStr) (hc : c ≠ []) :
    render rooted (c :: rest) ≠ [] := by
  cases rooted with
  | true =>
    show '/' :: joinSlash (c :: rest) ≠ []
    simp
  | false =>
    show joinSlash (c :: rest) ≠ []
    rcases joinSlash_cons_decomp c rest with h | ⟨t, h⟩ <;> rw [h]
    · exact hc
    · simp [hc]

theorem pathDirL_render (rooted : Bool) (cs : List PStr) (b : PStr)
    (hinv : invComps rooted (cs ++ [b])) :
    pathDirL (render rooted (cs ++ [b])) = render rooted cs := by
  have hb : goodComp b := hinv.1 b (List.mem_append_right _ (List.mem_singleton.mpr rfl))
  cases cs with
  | nil =>
    cases rooted with
    | false =>
      show pathDirL (joinSlash [b]) = _
      show pathDirL b = _
      unfold pathDirL
      rw [upToLastSlash_no_slash b hb.2.2]
      decide
    | true =>
      show pathDirL ('/' :: b) = _
      unfold pathDirL
      rw [show ('/' :: b : PStr) = [] ++ '/' :: b from rfl,
        upToLastSlash_append_slash [] b hb.2.2]
      decide
  | cons c rest =>
    have hcr : render rooted ((c :: rest) ++ [b]) =
        render rooted (c :: rest) ++ '/' :: b := by
      cases rooted with
      | true =>
        show '/' :: joinSlash ((c :: rest) ++ [b]) = ('/' :: joinSlash (c :: rest)) ++ '/' :: b
        rw [joinSlash_snoc _ _ (List.cons_ne_nil _ _)]
        rfl
      | false =>
        show joinSlash ((c :: rest) ++ [b]) = joinSlash (c :: rest) ++ '/' :: b
        exact joinSlash_snoc _ _ (List.cons_ne_nil _ _)
    rw [hcr]
    unfold pathDirL
    rw [upToLastSlash_append_slash _ b hb.2.2]
    have hgc : goodComp c :=
      hinv.1 c (List.mem_append_left _ (List.mem_cons_self _ _))
    rw [pathCleanL_snoc_slash _ (render_ne_nil rooted c rest hgc.1)]
    exact clean_render_id rooted (c :: rest) (invComps_dropLast rooted _ b hinv)

theorem pathBaseL_split (y b : PStr) (hb : b ≠ []) (hsl : '/' ∉ b) :
    pathBaseL (y ++ '/' :: b) = b := by
  unfold pathBaseL
  rw [if_neg (by simp)]
  have hrev : (y ++ '/' :: b).reverse = b.reverse ++ '/' :: y.reverse := by simp
  rcases hbr : b.reverse with _ | ⟨h0, t0⟩
  · exfalso
    exact hb (by simpa using congrArg List.reverse hbr)
  have hh0 : h0 ∈ b := by
    rw [← List.mem_reverse, hbr]
    exact List.mem_cons_self _ _
  have hh0s : h0 ≠ '/' := fun hc => hsl (hc ▸ hh0)
  rw [hrev, hbr]
  rw [show ((h0 :: t0) ++ '/' :: y.reverse : PStr) = h0 :: (t0 ++ '/' :: y.reverse)
    from rfl]
  rw [dropWhile_cons_neg _ _ _ (by simp [hh0s])]
  rw [if_neg (by simp)]
  have htk : (h0 :: (t0 ++ '/' :: y.reverse)).takeWhile (· ≠ '/') = h0 :: t0 := by
    rw [show (h0 :: (t0 ++ '/' :: y.reverse) : PStr) = (h0 :: t0) ++ '/' :: y.reverse
      from rfl]
    apply takeWhile_append_stop
    · intro x hx
      simp only [decide_eq_true_eq]
      intro hc
      exact hsl (by
        rw [← hc]
        rw [← List.mem_reverse, hbr]
        exact hx)
    · simp
  rw [htk, ← hbr, List.reverse_reverse]

theorem pathBaseL_no_slash (b : PStr) (hb : b ≠ []) (hsl : '/' ∉ b) :
    pathBaseL b = b := by
  unfold pathBaseL
  rw [if_neg hb]
  dsimp only
  rcases hbr : b.reverse with _ | ⟨h0, t0⟩
  · exfalso
    exact hb (by simpa using congrArg List.reverse hbr)
  have hh0 : h0 ∈ b := by
    rw [← List.mem_reverse, hbr]
    exact List.mem_cons_self _ _
  have hh0s : h0 ≠ '/' := fun hc => hsl (hc ▸ hh0)
  have htw : (h0 :: t0).takeWhile (fun x => decide (x ≠ '/')) = h0 :: t0 := by
    apply takeWhile_all
    intro x hx
    simp only [ne_eq, decide_not, Bool.not_eq_true']
    simp only [decide_eq_false_iff_not]
    intro hc
    exact hsl (by
      rw [← hc, ← List.mem_reverse, hbr]
      exact hx)
  rw [dropWhile_cons_neg _ _ _ (by simp [hh0s]), if_neg (by simp), htw, ← hbr,
    List.reverse_reverse]

theorem pathBaseL_render (rooted : Bool) (cs : List PStr) (b : PStr)
    (hinv : invComps rooted (cs ++ [b])) :
    pathBaseL (render rooted (cs ++ [b])) = b := by
  have hb : goodComp b := hinv.1 b (List.mem_append_right _ (List.mem_singleton.mpr rfl))
  cases cs with
  | nil =>
    cases rooted with
    | false =>
      show pathBaseL (joinSlash [b]) = _
      exact pathBaseL_no_slash b hb.1 hb.2.2
    | true =>
      show pathBaseL ('/' :: b) = _
      rw [show ('/' :: b : PStr) = [] ++ '/' :: b from rfl]
      exact pathBaseL_split [] b hb.1 hb.2.2
  | cons c rest =>
    have hcr : render rooted ((c :: rest) ++ [b]) =
        render rooted (c :: rest) ++ '/' :: b := by
      cases rooted with
      | true =>
        show '/' :: joinSlash ((c :: rest) ++ [b]) = ('/' :: joinSlash (c :: rest)) ++ '/' :: b
        rw [joinSlash_snoc _ _ (List.cons_ne_nil _ _)]
        rfl
      | false =>
        show joinSlash ((c :: rest) ++ [b]) = joinSlash (c :: rest) ++ '/' :: b
        exact joinSlash_snoc _ _ (List.cons_ne_nil _ _)
    rw [hcr]
    exact pathBaseL_split _ b hb.1 hb.2.2

theorem render_ne_dot (rooted : Bool) (c : PStr) (rest : List PStr)
    (hgc : goodComp c) : render rooted (c :: rest) ≠ ['.'] := by
  cases rooted with
  | true =>
    show '/' :: joinSlash (c :: rest) ≠ ['.']
    intro h
    have := List.head_eq_of_cons_eq h
    simp at this
  | false =>
    show joinSlash (c :: rest) ≠ ['.']
    rcases joinSlash_cons_decomp c rest with h | ⟨t, h⟩ <;> rw [h]
    · exact hgc.2.1
    · intro hc
      rcases hcc : c with _ | ⟨a, as⟩
    

      · exact hgc.1 hcc
      · rw [hcc] at hc
        have hlen := congrArg List.length hc
        simp at hlen

theorem render_ne_slash (rooted : Bool) (c : PStr) (rest : List PStr)
    (hgc : goodComp c) : render rooted (c :: rest) ≠ ['/'] := by
  cases rooted with
  | true =>
    show '/' :: joinSlash (c :: rest) ≠ ['/']
    intro h
    have htail := List.tail_eq_of_cons_eq h
    rcases joinSlash_cons_decomp c rest with h2 | ⟨t, h2⟩ <;> rw [h2] at htail
    · exact hgc.1 htail
    · rcases hcc : c with _ | ⟨a, as⟩
      · exact hgc.1 hcc
      · rw [hcc] at htail
        have := congrArg List.length htail
        simp at this
  | false =>
    show joinSlash (c :: rest) ≠ ['/']
    rcases joinSlash_cons_decomp c rest with h | ⟨t, h⟩ <;> rw [h]
    · intro hc
      exact hgc.2.2 (by rw [hc]; exact List.mem_cons_self _ _)
    · rcases hcc : c with _ | ⟨a, as⟩
      · exact fun _ => hgc.1 hcc
      · intro hc
        have hlen := congrArg List.length hc
        simp at hlen

theorem render_reconstruct (rooted : Bool) (cs : List PStr) (b : PStr)
    (hinv : invComps rooted (cs ++ [b])) :
    render rooted (cs ++ [b]) =
      (if render rooted cs = ['.'] then b
       else if render rooted cs = ['/'] then '/' :: b
       else render rooted cs ++ '/' :: b) := by
  cases cs with
  | nil =>
    cases rooted with
    | false =>
      have h1 : render false ([] : List PStr) = ['.'] := rfl
      rw [h1, if_pos rfl]
      rfl
    | true =>
      have h1 : render true ([] : List PStr) = ['/'] := rfl
      rw [h1, if_neg (by decide), if_pos rfl]
      rfl
  | cons c rest =>
    have hgc : goodComp c :=
      hinv.1 c (List.mem_append_left _ (List.mem_cons_self _ _))
    rw [if_neg (render_ne_dot rooted c rest hgc), if_neg (render_ne_slash rooted c rest hgc)]
    cases rooted with
    | true =>
      show '/' :: joinSlash ((c :: rest) ++ [b]) = ('/' :: joinSlash (c :: rest)) ++ '/' :: b
      rw [joinSlash_snoc _ _ (List.cons_ne_nil _ _)]
      rfl
    | false =>
      show joinSlash ((c :: rest) ++ [b]) = joinSlash (c :: rest) ++ '/' :: b
      exact joinSlash_snoc _ _ (List.cons_ne_nil _ _)

theorem render_base_dir_inj (r1 r2 : Bool) (cs1 cs2 : List PStr)
    (h1 : invComps r1 cs1) (h2 : invComps r2 cs2)
    (hdir : pathDirL (render r1 cs1) = pathDirL (render r2 cs2))
    (hbase : pathBaseL (render r1 cs1) = pathBaseL (render r2 cs2)) :
    render r1 cs1 = render r2 cs2 := by
  rcases List.eq_nil_or_concat cs1 with hc1 | ⟨ds1, b1, hc1⟩ <;>
    rcases List.eq_nil_or_concat cs2 with hc2 | ⟨ds2, b2, hc2⟩
  · subst hc1
    subst hc2
    cases r1 <;> cases r2
    · rfl
    · exact absurd hbase (by decide)
    · exact absurd hbase (by decide)
    · rfl
  · subst hc1
    rw [List.concat_eq_append] at hc2
    subst hc2
    have hgb : goodComp b2 :=
      h2.1 b2 (List.mem_append_right _ (List.mem_singleton.mpr rfl))
    rw [pathBaseL_render r2 ds2 b2 h2] at hbase
    exfalso
    cases r1 with
    | false =>
      have : pathBaseL (render false []) = ['.'] := by decide
      rw [this] at hbase
      exact hgb.2.1 hbase.symm
    | true =>
      have : pathBaseL (render true []) = ['/'] := by decide
      rw [this] at hbase
      exact hgb.2.2 (by rw [← hbase]; exact List.mem_cons_self _ _)
  · subst hc2
    rw [List.concat_eq_append] at hc1
    subst hc1
    have hgb : goodComp b1 :=
      h1.1 b1 (List.mem_append_right _ (List.mem_singleton.mpr rfl))
    rw [pathBaseL_render r1 ds1 b1 h1] at hbase
    exfalso
    cases r2 with
    | false =>
      have : pathBaseL (render false []) = ['.'] := by decide
      rw [this] at hbase
      exact hgb.2.1 hbase
    | true =>
      have : pathBaseL (render true []) = ['/'] := by decide
      rw [this] at hbase
      exact hgb.2.2 (by rw [hbase]; exact List.mem_cons_self _ _)
  · rw [List.concat_eq_append] at hc1 hc2
    subst hc1
    subst hc2
    have hd1 := pathDirL_render r1 ds1 b1 h1
    have hd2 := pathDirL_render r2 ds2 b2 h2
    have hb1 := pathBaseL_render r1 ds1 b1 h1
    have hb2 := pathBaseL_render r2 ds2 b2 h2
    have hdirs : render r1 ds1 = render r2 ds2 := by
      rw [← hd1, ← hd2]
      exact hdir
    have hbs : b1 = b2 := by
      rw [← hb1, ← hb2]
      exact hbase
    rw [render_reconstruct r1 ds1 b1 h1, render_reconstruct r2 ds2 b2 h2, hdirs, hbs]

theorem clean_base_dir_inj (x y : PStr)
    (hdir : pathDirL (pathCleanL x) = pathDirL (pathCleanL y))
    (hbase : pathBaseL (pathCleanL x) = pathBaseL (pathCleanL y)) :
    pathCleanL x = pathCleanL y :=
  render_base_dir_inj (isRooted x) (isRooted y) _ _
    (pathCleanL_invComps x) (pathCleanL_invComps y) hdir hbase

theorem nodup_cleans (ms : List TarMember)
    (h1 : ∀ jj, jj < ms.length → ∀ ii, ii < jj → cleanAt ms ii ≠ cleanAt ms jj) :
    (ms.map (fun m => pathCleanL m.name)).Nodup := by
  have hgd : ∀ k (hk : k < ms.length), cleanAt ms k = pathCleanL ms[k].name := by
    intro k hk
    unfold cleanAt
    rw [List.getD_eq_getElem?_getD, List.getElem?_eq_getElem hk]
    rfl
  apply List.pairwise_iff_getElem.mpr
  intro i j hi hj hij
  simp only [List.getElem_map]
  have hj' : j < ms.length := by simpa using hj
  have hi' : i < ms.length := by omega
  have hne := h1 j hj' i hij
  rw [hgd i hi', hgd j hj'] at hne
  exact hne

theorem directChildren_records_nodup (ms : List TarMember) (d : PStr)
    (h1 : ∀ jj, jj < ms.length → ∀ ii, ii < jj → cleanAt ms ii ≠ cleanAt ms jj) :
    ((directChildren ms d).map (fun mm => toFileRec d (headerOf mm))).Nodup := by
  have hnod := nodup_cleans ms h1
  have hsub : ((directChildren ms d).map (fun m => pathCleanL m.name)).Sublist
      (ms.map (fun m => pathCleanL m.name)) :=
    (List.filter_sublist ms).map _
  have hnodc : ((directChildren ms d).map (fun m => pathCleanL m.name)).Nodup :=
    hnod.sublist hsub
  have hdirs : ∀ m ∈ directChildren ms d, pathDirL (pathCleanL m.name) = d := by
    intro m hm
    have h := List.of_mem_filter hm
    simpa [isChildOf] using h
  have hbase : ((directChildren ms d).map
      (fun m => pathBaseL (pathCleanL m.name))).Nodup := by
    have heq : (directChildren ms d).map (fun m => pathBaseL (pathCleanL m.name)) =
        ((directChildren ms d).map (fun m => pathCleanL m.name)).map pathBaseL := by
      rw [List.map_map]
      rfl
    rw [heq]
    apply List.Nodup.map_on ?_ hnodc
    intro p hp q hq hpq
    rcases List.mem_map.mp hp with ⟨mp, hmp, hpe⟩
    rcases List.mem_map.mp hq with ⟨mq, hmq, hqe⟩
    subst hpe
    subst hqe
    apply clean_base_dir_inj
    · rw [hdirs mp hmp, hdirs mq hmq]
    · exact hpq
  have hnames : (((directChildren ms d).map
      (fun mm => toFileRec d (headerOf mm))).map (fun r => r.name)) =
      (directChildren ms d).map (fun m => pathBaseL (pathCleanL m.name)) := by
    rw [List.map_map]
    rfl
  exact List.Nodup.of_map (fun r => r.name) (hnames ▸ hbase)

/-- C6 (corrected): under the amended hypotheses — (H1) distinct members
have distinct cleaned paths, (H2) no member's path cleans to `.`, and (H3)
each member's parent directory is the root or appears as an earlier
member — `GetFiles` on the pseudo root and on every directory member
returns exactly the direct children of that directory, in archive
encounter order (the filter `directChildren`), with no duplicate entries
and hence no deeper descendants. -/
theorem c6_getFiles_direct_children (dID : String) (ms : List TarMember)
    (h1 : ∀ jj, jj < ms.length → ∀ ii, ii < jj → cleanAt ms ii ≠ cleanAt ms jj)
    (h2 : ∀ ii, ii < ms.length → cleanAt ms ii ≠ ['.'])
    (h3 : ∀ ii, ii < ms.length → pathDirL (cleanAt ms ii) = ['.'] ∨
      ∃ jj, jj < ii ∧ cleanAt ms jj = pathDirL (cleanAt ms ii)) :
    ∀ p, ((p = ['.']) ∨
        ∃ j, j < ms.length ∧ p = cleanAt ms j ∧
          (ms.getD j default).typeflag = tarTypeDir) →
      LayerM.getFiles ⟨dID, some (tarfsNew ms)⟩ p =
        .ok ((directChildren ms p).map (fun mm => toFileRec p (headerOf mm))) ∧
      ((directChildren ms p).map (fun mm => toFileRec p (headerOf mm))).Nodup := by
  intro p hcase
  refine ⟨?_, directChildren_records_nodup ms p h1⟩
  rcases hcase with hp | ⟨j, hj, hp, htf⟩
  · subst hp
    have hlk := tarfsNew_lookup_root ms h2
    have hcore := tarfsNew_core_root ms
    have hdr : ((tarfsNew ms).entries.getD 0 rootEntry).header =
        rootEntry.header := congrArg Prod.fst hcore
    have hch := buildIndex_children ms h1 h2 h3 0 (by omega)
    rw [← tarfsNew_entries] at hch
    simp only [pathAt] at hch
    exact getFiles_dir_eq dID ms ['.'] ['.'] 0 hlk (by rw [hdr]; rfl) hch
  · subst hp
    have hlk := tarfsNew_lookup_member ms j hj h1
    have hcore := tarfsNew_core ms j hj
    have hdr : ((tarfsNew ms).entries.getD (j + 1) rootEntry).header =
        headerOf (ms.getD j default) := congrArg Prod.fst hcore
    have hch := buildIndex_children ms h1 h2 h3 (j + 1) (by omega)
    rw [← tarfsNew_entries] at hch
    simp only [pathAt] at hch
    exact getFiles_dir_eq dID ms (cleanAt ms j) (cleanAt ms j) (j + 1) hlk
      (by rw [hdr]; exact htf) hch

set_option maxRecDepth 40000 in
/-- C6 counterexample: in `dupArchive` the path `dir1/a` occurs twice, and
`GetFiles "dir1"` lists two entries both named `a` — duplicate entries,
refuting the unconditional claim on raw archives. -/
theorem c6_counterexample :
    (LayerM.getFiles ⟨"sha256:dup", some (tarfsNew dupArchive)⟩ (strL "dir1")).map
        (fun l => l.map (fun r => r.name)) = .ok [strL "a", strL "a"] ∧
    ¬ ([strL "a", strL "a"] : List PStr).Nodup := by
  constructor
  · decide
  · decide

set_option maxRecDepth 40000 in
/-- Witness: the amended C6 theorem applied to the example archive at the
directory member `dir1`. -/
theorem c6_witness :
    LayerM.getFiles ⟨"sha256:aa", some (tarfsNew exArchive)⟩ (strL "dir1") =
      .ok ((directChildren exArchive (strL "dir1")).map
        (fun mm => toFileRec (strL "dir1") (headerOf mm))) ∧
    ((directChildren exArchive (strL "dir1")).map
        (fun mm => toFileRec (strL "dir1") (headerOf mm))).Nodup :=
  c6_getFiles_direct_children "sha256:aa" exArchive
    (by decide) (by decide) (by decide) (strL "dir1")
    (Or.inr ⟨0, by decide, by decide, by decide⟩)
